import Mathlib

/-!
Shallow embedding of the RethinkDB write-path term layer
(`src/rdb_protocol/terms/writes.cc`): the insert, replace and foreach
term evaluators, option parsing, primary-key generation, and the
statistics-merging that folds per-batch engine results into one stats
object.

External collaborators (the table engine, the generic `datum_t::merge`
primitive and the `stats_merge` resolver, which live outside the given
source file) are modelled from the specification's interface
descriptions; each such definition says so in its doc comment.
-/

namespace RethinkWrites

/-- A ReQL datum (shallow embedding of `datum_t`): null, boolean, number,
string, array or object.  Objects are association lists of field name to
value; stats counters are natural numbers (the spec's non-negative
numeric counts). -/
inductive Datum where
  | null : Datum
  | bool : Bool → Datum
  | num : Nat → Datum
  | str : String → Datum
  | arr : List Datum → Datum
  | obj : List (String × Datum) → Datum
deriving Inhabited

/-- Field lookup on an object's field list (first match wins). -/
def objGet : List (String × Datum) → String → Option Datum
  | [], _ => none
  | (k1, v) :: rest, k => if k1 = k then some v else objGet rest k

/-- `datum_t::get_field` with `NOTHROW`: `none` both for a missing field
and for a non-object datum (the C++ version throws on non-objects; the
callers modelled here catch or avoid that case). -/
def Datum.get_field : Datum → String → Option Datum
  | .obj fs, k => objGet fs k
  | _, _ => none

/-- Overwrite the value stored at a key that is already present
(`datum_object_builder_t::overwrite`); leaves the list unchanged if the
key is absent. -/
def objSet : List (String × Datum) → String → Datum → List (String × Datum)
  | [], _, _ => []
  | (k1, v1) :: rest, k, v =>
    if k1 = k then (k1, v) :: rest else (k1, v1) :: objSet rest k v

/-- `datum_object_builder_t::add`: returns the new field list and a flag
that is `true` iff the key was already present (a conflict). -/
def builderAdd (fs : List (String × Datum)) (k : String) (v : Datum) :
    List (String × Datum) × Bool :=
  match objGet fs k with
  | some _ => (fs, true)
  | none => (fs ++ [(k, v)], false)

/-- A merge-conflict resolver: key, left value, right value and the
accumulated condition (warning) set; `none` models the resolver
raising. -/
def Resolver : Type :=
  String → Datum → Datum → List String → Option (Datum × List String)

/-- Modelled from the spec: the generic document merge primitive
(`datum_t::merge`, an out-of-scope structural operation per the spec's
scope section).  Starting from the left object's fields, each right-hand
field is added when absent on the left and otherwise resolved by the
callback; the result also reports how many times the resolver was
invoked.  `none` models a raised merge error. -/
def datumMerge (resolver : Resolver) :
    List (String × Datum) → List (String × Datum) → List String →
    Option (List (String × Datum) × List String × Nat)
  | l, [], conds => some (l, conds, 0)
  | l, (k, v) :: rest, conds =>
    match objGet l k with
    | some lv =>
      match resolver k lv v conds with
      | some (res, conds1) =>
        match datumMerge resolver (objSet l k res) rest conds1 with
        | some (o, c, n) => some (o, c, n + 1)
        | none => none
      | none => none
    | none => datumMerge resolver (l ++ [(k, v)]) rest conds

/-- `pure_merge`: the resolver used where a merge conflict should be
impossible; its body is `r_sanity_check(false)`, modelled as failure. -/
def pure_merge : Resolver := fun _ _ _ _ => none

/-- Modelled from the spec: the `stats_merge` resolver (defined outside
the given source file).  Numeric counters add, arrays concatenate, equal
strings collapse to one; any other combination is a raised merge
error. -/
def stats_merge : Resolver := fun _ l r conds =>
  match l, r with
  | .num a, .num b => some (.num (a + b), conds)
  | .arr a, .arr b => some (.arr (a ++ b), conds)
  | .str a, .str b => if a = b then some (.str a, conds) else none
  | _, _ => none

/-- Error classes of `base_exc_t`. -/
inductive ExcType where
  | LOGIC : ExcType
  | NON_EXISTENCE : ExcType
  | RESOURCE : ExcType
  | USER : ExcType
  | INTERNAL : ExcType
deriving Repr, DecidableEq

/-- Location information carried by an error: `exc_t` carries a
backtrace (and a dummy-frames flag), `datum_exc_t` carries none. -/
inductive BtInfo where
  | noBt : BtInfo
  | bt : Nat → Bool → BtInfo
deriving Repr, DecidableEq

/-- A raised query-language error: classification, message and location
information. -/
structure RError where
  typ : ExcType
  msg : String
  btinfo : BtInfo
deriving Repr, DecidableEq

/-- `new_stats_object`'s field list: the six counters, all zero. -/
def new_stats_fields : List (String × Datum) :=
  [("inserted", .num 0), ("deleted", .num 0), ("skipped", .num 0),
   ("replaced", .num 0), ("unchanged", .num 0), ("errors", .num 0)]

/-- `new_stats_object`: a fresh stats object whose six counters are 0. -/
def new_stats_object : Datum := .obj new_stats_fields

/-- The six counter keys of a stats object. -/
def statKeys : List String :=
  ["inserted", "deleted", "skipped", "replaced", "unchanged", "errors"]

/-- `conflict_behavior_t`. -/
inductive conflict_behavior_t where
  | ERROR : conflict_behavior_t
  | REPLACE : conflict_behavior_t
  | UPDATE : conflict_behavior_t
deriving Repr, DecidableEq

/-- `parse_conflict_optarg`: absence defaults to `ERROR`; exactly
"error", "replace" and "update" are accepted. -/
def parse_conflict_optarg : Option String → Except RError conflict_behavior_t
  | none => .ok .ERROR
  | some s =>
    if s = "error" then .ok .ERROR
    else if s = "replace" then .ok .REPLACE
    else if s = "update" then .ok .UPDATE
    else .error ⟨.LOGIC,
      s!"Conflict option `{s}` unrecognized (options are \"error\", \"replace\" and \"update\").",
      .bt 0 false⟩

/-- `durability_requirement_t`. -/
inductive durability_requirement_t where
  | DEFAULT : durability_requirement_t
  | HARD : durability_requirement_t
  | SOFT : durability_requirement_t
deriving Repr, DecidableEq

/-- `parse_durability_optarg`: absence means `DEFAULT`; exactly "hard"
and "soft" are accepted. -/
def parse_durability_optarg : Option String → Except RError durability_requirement_t
  | none => .ok .DEFAULT
  | some s =>
    if s = "hard" then .ok .HARD
    else if s = "soft" then .ok .SOFT
    else .error ⟨.LOGIC,
      s!"Durability option `{s}` unrecognized (options are \"hard\" and \"soft\").",
      .bt 0 false⟩

/-- `return_changes_t`. -/
inductive return_changes_t where
  | NO : return_changes_t
  | YES : return_changes_t
  | ALWAYS : return_changes_t
deriving Repr, DecidableEq

/-- The fixed migration message for the obsolete `return_vals` option. -/
def return_vals_msg : String :=
  "Error: encountered obsolete optarg `return_vals`.  Use `return_changes` instead."

/-- `parse_return_changes`: the presence of `return_vals` is rejected
outright; a string value must be exactly "always"; otherwise the value
is read as a boolean (a non-boolean, non-string datum is a type
error). -/
def parse_return_changes (rv_present : Bool) (rc : Option Datum) :
    Except RError return_changes_t :=
  if rv_present then
    .error ⟨.LOGIC, return_vals_msg, .bt 0 false⟩
  else
    match rc with
    | none => .ok .NO
    | some (.str s) =>
      if s = "always" then .ok .ALWAYS
      else .error ⟨.LOGIC,
        s!"Invalid return_changes value `{s}` (options are `true`, `false`, and `\x27always\x27`.)",
        .bt 0 false⟩
    | some (.bool b) => .ok (if b then .YES else .NO)
    | some _ => .error ⟨.LOGIC, "Expected type BOOL but found another type.", .bt 0 false⟩

/-- Modelled from the spec: `datum_object_builder_t::add_warning` (lives
outside the given source file).  Warnings collect into a `warnings`
array field, deduplicated as a set of message strings. -/
def add_warning (fs : List (String × Datum)) (w : String) : List (String × Datum) :=
  match objGet fs "warnings" with
  | some (.arr ws) =>
    if ws.any (fun d => match d with | .str s => s = w | _ => false) then fs
    else objSet fs "warnings" (.arr (ws ++ [.str w]))
  | some _ => fs
  | none => fs ++ [("warnings", .arr [.str w])]

/-- `datum_object_builder_t::add_warnings`: fold every accumulated merge
condition into the `warnings` field. -/
def add_warnings (fs : List (String × Datum)) (conds : List String) :
    List (String × Datum) :=
  conds.foldl add_warning fs

/-- The error produced when two stats values of incompatible types are
merged (a `datum_exc_t` from the merge layer; message modelled). -/
def statsMergeError : RError :=
  ⟨.LOGIC, "Cannot merge stats of incompatible types.", .noBt⟩

/-- The error standing for a failed `r_sanity_check` (an invariant
violation; never reachable in the proved executions). -/
def sanityError : RError :=
  ⟨.INTERNAL, "Sanity check failed.", .noBt⟩

/-- Merge a stats field list with an engine-returned stats datum using a
resolver, as in `stats.merge(replace_stats, stats_merge, limits,
&conditions)`; the right-hand side must be an object. -/
def mergeStatsFields (resolver : Resolver) (stats : List (String × Datum))
    (rhs : Datum) (conds : List String) :
    Option (List (String × Datum) × List String) :=
  match rhs with
  | .obj rs => (datumMerge resolver stats rs conds).map (fun r => (r.1, r.2.1))
  | _ => none

/-- The request-wide key-generation accumulator of `insert_term_t`:
the `generated_keys` vector, the `keys_skipped` counter, and how many
fresh UUIDs have been drawn from the generator so far. -/
structure KeyGenState where
  generated_keys : List String
  keys_skipped : Nat
  uuids_used : Nat
deriving Repr, DecidableEq

/-- `insert_term_t::maybe_generate_key`.  A document that already has
the primary-key field is returned unchanged with the autogenerated flag
`false`.  Otherwise a fresh key is drawn from `supply`, added to a
one-field object (checking the builder-add conflict), merged into the
document with `pure_merge` (checking that no warning conditions arise),
and either appended to `generated_keys` (below the limit) or counted as
skipped.  `none` models a thrown `base_exc_t` (non-object document, or a
failed sanity check). -/
def maybe_generate_key (pkey : String) (limit : Nat) (supply : Nat → String)
    (st : KeyGenState) (d : Datum) : Option (KeyGenState × Datum × Bool) :=
  match d with
  | .obj fs =>
    match objGet fs pkey with
    | some _ => some (st, .obj fs, false)
    | none =>
      let key := supply st.uuids_used
      let added := builderAdd [] pkey (.str key)
      if added.2 then none
      else
        match datumMerge pure_merge fs added.1 [] with
        | none => none
        | some (fs1, conds, _) =>
          if conds = [] then
            let st1 :=
              if st.generated_keys.length < limit then
                { st with generated_keys := st.generated_keys ++ [key],
                          uuids_used := st.uuids_used + 1 }
              else
                { st with keys_skipped := st.keys_skipped + 1,
                          uuids_used := st.uuids_used + 1 }
            some (st1, .obj fs1, true)
          else none
  | _ => none

/-- The per-batch key-generation pass of `insert_term_t::eval_impl`:
run `maybe_generate_key` on every document, swallowing its errors
(document kept unchanged, autogenerated flag left `false`). -/
def insert_batch_keys (pkey : String) (limit : Nat) (supply : Nat → String) :
    KeyGenState → List Datum → KeyGenState × List Datum × List Bool
  | st, [] => (st, [], [])
  | st, d :: rest =>
    let step :=
      match maybe_generate_key pkey limit supply st d with
      | some r => r
      | none => (st, d, false)
    let tail := insert_batch_keys pkey limit supply step.1 rest
    (tail.1, step.2.1 :: tail.2.1, step.2.2 :: tail.2.2)

/-- The external collaborators of an insert request: the table's
primary-key field, the configured array-size limit, the UUID source, and
the table engine's `batched_insert` (which returns a per-batch stats
object). -/
structure InsertEnv where
  pkey : String
  limit : Nat
  supply : Nat → String
  batched_insert : List Datum → List Bool → Datum

/-- The two shapes of an insert payload in `insert_term_t::eval_impl`:
a single literal object document, or a stream consumed as batches (an
empty batch ends the stream). -/
inductive InsertSource where
  | single : List (String × Datum) → InsertSource
  | batches : List (List Datum) → InsertSource

/-- Externally visible actions of one insert request: the engine calls
made (documents with their autogenerated flags), and the final
generated-keys list and skipped count. -/
structure InsertTrace where
  calls : List (List Datum × List Bool)
  generated_keys : List String
  keys_skipped : Nat

/-- The batch loop of `insert_term_t::eval_impl`: pull batches until an
empty one, generate keys, call `batched_insert` and fold the returned
stats into the running total. -/
def insert_loop (env : InsertEnv) :
    List (List Datum) → KeyGenState → List (String × Datum) → List String →
    List (List Datum × List Bool) →
    Except RError (List (String × Datum) × List String) × KeyGenState ×
      List (List Datum × List Bool)
  | [], st, stats, conds, calls => (.ok (stats, conds), st, calls)
  | batch :: rest, st, stats, conds, calls =>
    if batch.isEmpty then (.ok (stats, conds), st, calls)
    else
      let gen := insert_batch_keys env.pkey env.limit env.supply st batch
      let rstats := env.batched_insert gen.2.1 gen.2.2
      match mergeStatsFields stats_merge stats rstats conds with
      | some (stats1, conds1) =>
        insert_loop env rest gen.1 stats1 conds1 (calls ++ [(gen.2.1, gen.2.2)])
      | none => (.error statsMergeError, gen.1, calls ++ [(gen.2.1, gen.2.2)])

/-- The aggregated-truncation warning of `insert_term_t::eval_impl`
(`"Too many generated keys (%zu), array truncated to %zu."`). -/
def truncation_warning (total finalCount : Nat) : String :=
  s!"Too many generated keys ({total}), array truncated to {finalCount}."

/-- The source-consuming phase of `insert_term_t::eval_impl`: the
single-object shortcut (one key generation, one engine call), or the
batch loop over a stream. -/
def insert_run (env : InsertEnv) (src : InsertSource) :
    Except RError (List (String × Datum) × List String) × KeyGenState ×
      List (List Datum × List Bool) :=
  let st0 : KeyGenState := ⟨[], 0, 0⟩
  match src with
  | .single fs =>
    let step :=
      match maybe_generate_key env.pkey env.limit env.supply st0 (.obj fs) with
      | some r => r
      | none => (st0, Datum.obj fs, false)
    let rstats := env.batched_insert [step.2.1] [step.2.2]
    match mergeStatsFields stats_merge new_stats_fields rstats [] with
    | some (s1, c1) =>
      (Except.ok (s1, c1), step.1, [([step.2.1], [step.2.2])])
    | none =>
      (Except.error statsMergeError, step.1, [([step.2.1], [step.2.2])])
  | .batches bs => insert_loop env bs st0 new_stats_fields [] []

/-- The result-building phase of `insert_term_t::eval_impl`: fold
`generated_keys` into the totals when at least one key was generated
(a `pure_merge` that must not conflict; `none` models the sanity-check
failure), then append the merge-condition warnings and the aggregated
truncation warning. -/
def insert_finalize (stats : List (String × Datum)) (conds : List String)
    (st : KeyGenState) : Option Datum :=
  let folded :=
    if st.generated_keys.length > 0 then
      (datumMerge pure_merge stats
        [("generated_keys", .arr (st.generated_keys.map Datum.str))] conds).map
        (fun r => (r.1, r.2.1))
    else some (stats, conds)
  match folded with
  | none => none
  | some (stats1, conds1) =>
    let withW := add_warnings stats1 conds1
    let final :=
      if st.keys_skipped > 0 then
        add_warning withW
          (truncation_warning (st.keys_skipped + st.generated_keys.length)
            st.generated_keys.length)
      else withW
    some (.obj final)

/-- `insert_term_t::eval_impl`: parse the request options, run the
key-generating source phase, and build the result object. -/
def insert_eval (env : InsertEnv) (rv_present : Bool) (rc : Option Datum)
    (conflict : Option String) (dur : Option String) (src : InsertSource) :
    Except RError Datum × InsertTrace :=
  let tr0 : InsertTrace := ⟨[], [], 0⟩
  match parse_return_changes rv_present rc with
  | .error e => (.error e, tr0)
  | .ok _rc =>
  match parse_conflict_optarg conflict with
  | .error e => (.error e, tr0)
  | .ok _cb =>
  match parse_durability_optarg dur with
  | .error e => (.error e, tr0)
  | .ok _dr =>
  match insert_run env src with
  | (.error e, st, calls) => (.error e, ⟨calls, st.generated_keys, st.keys_skipped⟩)
  | (.ok (stats, conds), st, calls) =>
    let tr : InsertTrace := ⟨calls, st.generated_keys, st.keys_skipped⟩
    match insert_finalize stats conds st with
    | none => (.error sanityError, tr)
    | some d => (.ok d, tr)

/-- The external collaborators of a replace request: the table's
primary-key field, the stats returned by the single-selection `replace`
primitive, and the table engine's `batched_replace`, taking the pulled
values and the per-document keys. -/
structure ReplaceEnv where
  pkey : String
  single_replace : Datum
  batched_replace : List Datum → List Datum → Datum

/-- The two target shapes of `replace_term_t::eval_impl`: a single
selection, or a row set (table plus document stream, consumed as batches
where an empty batch ends the stream). -/
inductive ReplaceTarget where
  | single : ReplaceTarget
  | rowset : List (List Datum) → ReplaceTarget

/-- A call made to the external table engine by a replace request. -/
inductive EngineCall where
  | singleReplace : EngineCall
  | batchedReplace : List Datum → List Datum → EngineCall

/-- Externally visible actions of one replace request: whether a
key-extraction projection was attached to the stream, the engine calls
made, and how many batches were pulled from the stream. -/
structure ReplaceTrace where
  attachedProjection : Bool
  calls : List EngineCall
  pulledBatches : Nat

/-- The key-extraction projection `r.fun(x, x[pkey])` attached to the
stream in the deterministic branch, and also the per-document
`val.get_field(pkey)` read of the non-deterministic branch: extract the
primary-key value, raising when the field is missing or the row is not
an object. -/
def project_row (pkey : String) (d : Datum) : Except RError Datum :=
  match d with
  | .obj fs =>
    match objGet fs pkey with
    | some v => .ok v
    | none => .error ⟨.NON_EXISTENCE, s!"No attribute `{pkey}` in object.", .bt 0 false⟩
  | _ => .error ⟨.LOGIC, "Cannot perform bracket on a non-object non-sequence.", .bt 0 false⟩

/-- Extract the primary-key value of every document of a batch, stopping
at the first raised error (the effect of the projection on a pulled
batch in the deterministic branch, and of the per-document key reads in
the non-deterministic branch). -/
def projectBatch (pkey : String) : List Datum → Except RError (List Datum)
  | [] => .ok []
  | d :: rest =>
    match project_row pkey d with
    | .error e => .error e
    | .ok v =>
      match projectBatch pkey rest with
      | .error e => .error e
      | .ok vs => .ok (v :: vs)

/-- The batch loop of the row-set branch of `replace_term_t::eval_impl`.
With a deterministic function the stream has the projection attached, so
each pulled batch already consists of primary-key values and
`batched_replace` receives them as both `vals` and `keys`; with a
non-deterministic function the raw documents are pulled and the keys are
read from each document's primary-key field. -/
def replace_loop (env : ReplaceEnv) (det : Bool) :
    List (List Datum) → List (String × Datum) → List String →
    List EngineCall → Nat →
    Except RError (List (String × Datum) × List String) × List EngineCall × Nat
  | [], stats, conds, calls, pulls => (.ok (stats, conds), calls, pulls)
  | batch :: rest, stats, conds, calls, pulls =>
    if batch.isEmpty then (.ok (stats, conds), calls, pulls + 1)
    else if det then
      match projectBatch env.pkey batch with
      | .error e => (.error e, calls, pulls + 1)
      | .ok vals =>
        let rstats := env.batched_replace vals vals
        let calls1 := calls ++ [.batchedReplace vals vals]
        match mergeStatsFields stats_merge stats rstats conds with
        | some (s1, c1) => replace_loop env det rest s1 c1 calls1 (pulls + 1)
        | none => (.error statsMergeError, calls1, pulls + 1)
    else
      match projectBatch env.pkey batch with
      | .error e => (.error e, calls, pulls + 1)
      | .ok keys =>
        let rstats := env.batched_replace batch keys
        let calls1 := calls ++ [.batchedReplace batch keys]
        match mergeStatsFields stats_merge stats rstats conds with
        | some (s1, c1) => replace_loop env det rest s1 c1 calls1 (pulls + 1)
        | none => (.error statsMergeError, calls1, pulls + 1)

/-- The determinism-gate error raised by `replace_term_t::eval_impl`. -/
def determinism_gate_error : RError :=
  ⟨.LOGIC,
   "Could not prove argument deterministic.  Maybe you want to use the non_atomic flag?",
   .bt 0 false⟩

/-- `replace_term_t::eval_impl`: read the `non_atomic` opt-in, parse the
request options, apply the determinism gate, then either delegate to the
single-selection replace primitive or run the row-set batch loop (with
the key-extraction projection attached exactly when the function is
deterministic), folding every returned stats object into the total. -/
def replace_eval (env : ReplaceEnv) (non_atomic : Option Bool) (rv_present : Bool)
    (rc : Option Datum) (dur : Option String) (det : Bool)
    (target : ReplaceTarget) : Except RError Datum × ReplaceTrace :=
  let tr0 : ReplaceTrace := ⟨false, [], 0⟩
  let nondet_ok := non_atomic.getD false
  match parse_return_changes rv_present rc with
  | .error e => (.error e, tr0)
  | .ok _rc =>
  match parse_durability_optarg dur with
  | .error e => (.error e, tr0)
  | .ok _dr =>
  if !nondet_ok && !det then (.error determinism_gate_error, tr0)
  else
    match target with
    | .single =>
      match mergeStatsFields stats_merge new_stats_fields env.single_replace [] with
      | some (s1, c1) =>
        (.ok (.obj (add_warnings s1 c1)), ⟨false, [.singleReplace], 0⟩)
      | none => (.error statsMergeError, ⟨false, [.singleReplace], 0⟩)
    | .rowset bs =>
      match replace_loop env det bs new_stats_fields [] [] 0 with
      | (.ok (s, c), calls, pulls) =>
        (.ok (.obj (add_warnings s c)), ⟨det, calls, pulls⟩)
      | (.error e, calls, pulls) => (.error e, ⟨det, calls, pulls⟩)

/-- The fixed context message of `foreach_term_t::eval_impl`. -/
def foreach_fail_msg : String := "FOR_EACH expects one or more basic write queries."

/-- Printable type name of a datum (`datum_t::get_type_name`). -/
def type_name : Datum → String
  | .null => "NULL"
  | .bool _ => "BOOL"
  | .num _ => "NUMBER"
  | .str _ => "STRING"
  | .arr _ => "ARRAY"
  | .obj _ => "OBJECT"

/-- Element-wise stats merge of an array row result in
`foreach_term_t::eval_impl` (each element must itself be an object). -/
def interpret_arr : List Datum → List (String × Datum) → List String →
    Except RError (List (String × Datum) × List String)
  | [], s, c => .ok (s, c)
  | e :: rest, s, c =>
    match e with
    | .obj rs =>
      match datumMerge stats_merge s rs c with
      | some (s1, c1, _) => interpret_arr rest s1 c1
      | none => .error statsMergeError
    | other =>
      .error ⟨.LOGIC, s!"Expected type OBJECT but found {type_name other}.", .noBt⟩

/-- Interpreting one row result in `foreach_term_t::eval_impl`: an
object is stats-merged once; an array is stats-merged element by
element; anything else fails when its array size is taken.  Errors here
are `datum_exc_t`-like (no location of their own). -/
def interpret_row_result (d : Datum) (stats : List (String × Datum))
    (conds : List String) :
    Except RError (List (String × Datum) × List String) :=
  match d with
  | .obj rs =>
    match datumMerge stats_merge stats rs conds with
    | some (s1, c1, _) => .ok (s1, c1)
    | none => .error statsMergeError
  | .arr elems => interpret_arr elems stats conds
  | other =>
    .error ⟨.LOGIC, s!"Expected type ARRAY but found {type_name other}.", .noBt⟩

/-- The two catch clauses of `foreach_term_t::eval_impl`: an `exc_t`
is re-raised with the fixed message alone, keeping its classification
and backtrace; a `datum_exc_t` is re-raised at the function value's
location with the fixed message prepended to the original one. -/
def wrap_foreach_error (fbt : Nat) (e : RError) : RError :=
  match e.btinfo with
  | .bt b dummy => ⟨e.typ, foreach_fail_msg, .bt b dummy⟩
  | .noBt => ⟨e.typ, foreach_fail_msg ++ "  " ++ e.msg, .bt fbt false⟩

/-- The row loop of `foreach_term_t::eval_impl`.  The per-row function
call sits outside the try block: its errors propagate unchanged.  Errors
while interpreting the call's result are wrapped by the catch clauses.
Also returns how many rows the function was invoked on. -/
def foreach_loop (fbt : Nat) (f : Datum → Except RError Datum) :
    List Datum → List (String × Datum) → List String → Nat →
    Except RError Datum × Nat
  | [], stats, conds, n => (.ok (.obj (add_warnings stats conds)), n)
  | row :: rest, stats, conds, n =>
    match f row with
    | .error e => (.error e, n + 1)
    | .ok d =>
      match interpret_row_result d stats conds with
      | .ok (s1, c1) => foreach_loop fbt f rest s1 c1 (n + 1)
      | .error e => (.error (wrap_foreach_error fbt e), n + 1)

/-- `foreach_term_t::eval_impl`: starting from an *empty* object (not a
fresh stats object), fold every row's result in, then render the
warnings. -/
def foreach_eval (fbt : Nat) (f : Datum → Except RError Datum)
    (rows : List Datum) : Except RError Datum × Nat :=
  foreach_loop fbt f rows [] [] 0

/-- A field list all of whose values are numeric counters under keys
distinct from the `warnings` and `generated_keys` fields this layer
itself appends — the shape of a well-behaved engine stats response. -/
def CleanPairs (fs : List (String × Datum)) : Prop :=
  ∀ p ∈ fs, (∃ n, p.2 = Datum.num n) ∧ p.1 ≠ "warnings" ∧ p.1 ≠ "generated_keys"

/-- A well-behaved engine stats response: an object with `CleanPairs`
fields. -/
def CleanStats : Datum → Prop
  | .obj fs => CleanPairs fs
  | _ => False

/-- The primary-key values of a batch, as read by the key-extraction
projection (or by the direct per-document field read). -/
def projList (pkey : String) (b : List Datum) : List Datum :=
  b.map (fun d => (Datum.get_field d pkey).getD .null)

/-- The numeric value stored under a key, if any. -/
def numAt (fs : List (String × Datum)) (k : String) : Option Nat :=
  match objGet fs k with
  | some (.num n) => some n
  | _ => none

/-- Addition of optional counters: the counter-wise effect of
`stats_merge` (absent counters are simply kept). -/
def addO : Option Nat → Option Nat → Option Nat
  | some a, some b => some (a + b)
  | some a, none => some a
  | none, some b => some b
  | none, none => none

/-- A well-formed stats object's field list: distinct keys, numeric
values. -/
def StatsWFFields (fs : List (String × Datum)) : Prop :=
  (fs.map Prod.fst).Nodup ∧ ∀ p ∈ fs, ∃ n, p.2 = Datum.num n

/-- Merging two stats field lists, as `stats.merge(rhs, stats_merge,
limits, &conditions)` does, starting from an empty condition set. -/
def stats_merge_fields (l r : List (String × Datum)) :
    Option (List (String × Datum)) :=
  (datumMerge stats_merge l r []).map (fun x => x.1)

/-- The concrete insert environment of the truncation round-trip:
primary key `id`, key-generation limit 0, and an engine stub whose
per-batch stats report every document as inserted. -/
def c5env : InsertEnv :=
  ⟨"id", 0, fun i => toString i, fun docs _ => .obj [("inserted", .num docs.length)]⟩

/-- The stats object actually produced by inserting `[{}, {}, {}]`
under `c5env`. -/
def c5result : Datum :=
  .obj [("inserted", .num 3), ("deleted", .num 0), ("skipped", .num 0),
        ("replaced", .num 0), ("unchanged", .num 0), ("errors", .num 0),
        ("warnings", .arr [.str "Too many generated keys (3), array truncated to 0."])]

/-- A concrete error raised while evaluating a foreach per-row
function. -/
def c7err : RError := ⟨.USER, "boom", .bt 3 true⟩

/-- A concrete replace environment: primary key `id`, and an engine stub
whose per-batch stats report every document as replaced. -/
def c6env : ReplaceEnv :=
  ⟨"id", .obj [], fun vs _ => .obj [("replaced", .num vs.length)]⟩

/-- A concrete insert environment whose engine stub returns empty stats
objects. -/
def c10env : InsertEnv :=
  ⟨"id", 2, fun _ => "k0", fun _ _ => .obj []⟩

theorem objGet_append_left {l : List (String × Datum)} (l2 : List (String × Datum))
    {k : String} {v : Datum} (h : objGet l k = some v) :
    objGet (l ++ l2) k = some v := by
  induction l with
  | nil => simp [objGet] at h
  | cons p rest ih =>
    obtain ⟨k1, v1⟩ := p
    simp only [List.cons_append, objGet] at h ⊢
    by_cases hk : k1 = k
    · simpa [hk] using h
    · rw [if_neg hk] at h ⊢
      exact ih h

theorem objGet_append_right {l : List (String × Datum)} (l2 : List (String × Datum))
    {k : String} (h : objGet l k = none) :
    objGet (l ++ l2) k = objGet l2 k := by
  induction l with
  | nil => simp
  | cons p rest ih =>
    obtain ⟨k1, v1⟩ := p
    simp only [List.cons_append, objGet] at h ⊢
    by_cases hk : k1 = k
    · simp [hk] at h
    · rw [if_neg hk] at h ⊢
      exact ih h

theorem objGet_mem {l : List (String × Datum)} {k : String} {v : Datum}
    (h : objGet l k = some v) : (k, v) ∈ l := by
  induction l with
  | nil => simp [objGet] at h
  | cons p rest ih =>
    obtain ⟨k1, v1⟩ := p
    simp only [objGet] at h
    by_cases hk : k1 = k
    · subst hk
      rw [if_pos rfl] at h
      cases h
      exact List.mem_cons_self _ _
    · rw [if_neg hk] at h
      exact List.mem_cons_of_mem _ (ih h)

theorem objGet_none_of_not_key {l : List (String × Datum)} {k : String}
    (h : ∀ p ∈ l, p.1 ≠ k) : objGet l k = none := by
  induction l with
  | nil => rfl
  | cons p rest ih =>
    obtain ⟨k1, v1⟩ := p
    simp only [objGet]
    rw [if_neg (h (k1, v1) (List.mem_cons_self _ _))]
    exact ih (fun q hq => h q (List.mem_cons_of_mem _ hq))

theorem objGet_none_key {l : List (String × Datum)} {k : String}
    (h : objGet l k = none) : ∀ p ∈ l, p.1 ≠ k := by
  intro p hp
  induction l with
  | nil => simp at hp
  | cons q rest ih =>
    obtain ⟨k1, v1⟩ := q
    simp only [objGet] at h
    by_cases hk : k1 = k
    · simp [hk] at h
    · rw [if_neg hk] at h
      rcases List.mem_cons.mp hp with h1 | h1
      · subst h1; exact hk
      · exact ih h h1

theorem objSet_get_self {l : List (String × Datum)} {k : String} {v w : Datum}
    (h : objGet l k = some w) : objGet (objSet l k v) k = some v := by
  induction l with
  | nil => simp [objGet] at h
  | cons p rest ih =>
    obtain ⟨k1, v1⟩ := p
    simp only [objGet, objSet] at h ⊢
    by_cases hk : k1 = k
    · simp [hk, objGet]
    · rw [if_neg hk] at h ⊢
      simp only [objGet]
      rw [if_neg hk]
      exact ih h

theorem objSet_get_ne {l : List (String × Datum)} {k k1 : String} (v : Datum)
    (h : k1 ≠ k) : objGet (objSet l k v) k1 = objGet l k1 := by
  induction l with
  | nil => rfl
  | cons p rest ih =>
    obtain ⟨k2, v2⟩ := p
    simp only [objSet]
    by_cases hk : k2 = k
    · subst hk
      simp only [objGet]
      rw [if_neg (fun hh => h hh.symm), if_neg (fun hh => h hh.symm)]
    · rw [if_neg hk]
      simp only [objGet]
      by_cases hk1 : k2 = k1
      · simp [hk1]
      · rw [if_neg hk1, if_neg hk1]
        exact ih

theorem objSet_mem {l : List (String × Datum)} {k : String} {v : Datum} {p : String × Datum}
    (hp : p ∈ objSet l k v) : p ∈ l ∨ (∃ w, (k, w) ∈ l ∧ p = (k, v)) := by
  induction l with
  | nil => simp [objSet] at hp
  | cons q rest ih =>
    obtain ⟨k1, v1⟩ := q
    simp only [objSet] at hp
    by_cases hk : k1 = k
    · subst hk
      rw [if_pos rfl] at hp
      rcases List.mem_cons.mp hp with h1 | h1
      · exact Or.inr ⟨v1, List.mem_cons_self _ _, h1⟩
      · exact Or.inl (List.mem_cons_of_mem _ h1)
    · rw [if_neg hk] at hp
      rcases List.mem_cons.mp hp with h1 | h1
      · exact Or.inl (h1 ▸ List.mem_cons_self _ _)
      · rcases ih h1 with h2 | ⟨w, hw, hpw⟩
        · exact Or.inl (List.mem_cons_of_mem _ h2)
        · exact Or.inr ⟨w, List.mem_cons_of_mem _ hw, hpw⟩

theorem objSet_map_fst (l : List (String × Datum)) (k : String) (v : Datum) :
    (objSet l k v).map Prod.fst = l.map Prod.fst := by
  induction l with
  | nil => rfl
  | cons p rest ih =>
    obtain ⟨k1, v1⟩ := p
    simp only [objSet]
    by_cases hk : k1 = k
    · simp [hk]
    · rw [if_neg hk]
      simp [ih]

theorem cleanPairs_append {l1 l2 : List (String × Datum)}
    (h1 : CleanPairs l1) (h2 : CleanPairs l2) : CleanPairs (l1 ++ l2) := by
  intro p hp
  rcases List.mem_append.mp hp with h | h
  · exact h1 p h
  · exact h2 p h

theorem cleanPairs_objSet {l : List (String × Datum)} {k : String} {n : Nat}
    (h : CleanPairs l) : CleanPairs (objSet l k (.num n)) := by
  intro p hp
  rcases objSet_mem hp with h1 | ⟨w, hw, hpw⟩
  · exact h p h1
  · subst hpw
    exact ⟨⟨n, rfl⟩, (h (k, w) hw).2.1, (h (k, w) hw).2.2⟩

theorem cleanPairs_warnings_none {fs : List (String × Datum)} (h : CleanPairs fs) :
    objGet fs "warnings" = none := by
  cases hg : objGet fs "warnings" with
  | none => rfl
  | some v => exact absurd rfl ((h _ (objGet_mem hg)).2.1)

theorem cleanPairs_genkeys_none {fs : List (String × Datum)} (h : CleanPairs fs) :
    objGet fs "generated_keys" = none := by
  cases hg : objGet fs "generated_keys" with
  | none => rfl
  | some v => exact absurd rfl ((h _ (objGet_mem hg)).2.2)

theorem dm_single_absent (R : Resolver) {l : List (String × Datum)} {k : String}
    (v : Datum) (conds : List String) (h : objGet l k = none) :
    datumMerge R l [(k, v)] conds = some (l ++ [(k, v)], conds, 0) := by
  simp [datumMerge, h]

theorem dm_pure {r : List (String × Datum)} :
    ∀ {l : List (String × Datum)} {conds : List String}
      {o : List (String × Datum)} {c : List String} {n : Nat},
    datumMerge pure_merge l r conds = some (o, c, n) →
    c = conds ∧ n = 0 ∧ ∀ k v, objGet l k = some v → objGet o k = some v := by
  induction r with
  | nil =>
    intro l conds o c n h
    simp only [datumMerge, Option.some.injEq, Prod.mk.injEq] at h
    obtain ⟨ho, hc, hn⟩ := h
    subst ho; subst hc; subst hn
    exact ⟨rfl, rfl, fun k v hv => hv⟩
  | cons p rest ih =>
    intro l conds o c n h
    obtain ⟨k0, v0⟩ := p
    simp only [datumMerge] at h
    split at h
    · simp [pure_merge] at h
    · obtain ⟨hc, hn, hpres⟩ := ih h
      exact ⟨hc, hn, fun k v hv => hpres k v (objGet_append_left _ hv)⟩

theorem stats_merge_some {k : String} {a b res : Datum} {conds c : List String}
    (h : stats_merge k a b conds = some (res, c)) : c = conds := by
  simp only [stats_merge] at h
  split at h
  · simp only [Option.some.injEq, Prod.mk.injEq] at h
    exact h.2.symm
  · simp only [Option.some.injEq, Prod.mk.injEq] at h
    exact h.2.symm
  · split at h
    · simp only [Option.some.injEq, Prod.mk.injEq] at h
      exact h.2.symm
    · simp at h
  · simp at h

theorem stats_merge_num {k : String} {a : Nat} {b res : Datum} {conds c : List String}
    (h : stats_merge k (.num a) b conds = some (res, c)) :
    ∃ m, b = Datum.num m ∧ res = .num (a + m) ∧ c = conds := by
  cases b with
  | num m =>
    simp only [stats_merge, Option.some.injEq, Prod.mk.injEq] at h
    exact ⟨m, rfl, h.1.symm, h.2.symm⟩
  | null => simp [stats_merge] at h
  | bool x => simp [stats_merge] at h
  | str s => simp [stats_merge] at h
  | arr l => simp [stats_merge] at h
  | obj fs => simp [stats_merge] at h

theorem dm_stats_conds {r : List (String × Datum)} :
    ∀ {l : List (String × Datum)} {conds : List String}
      {o : List (String × Datum)} {c : List String} {n : Nat},
    datumMerge stats_merge l r conds = some (o, c, n) → c = conds := by
  induction r with
  | nil =>
    intro l conds o c n h
    simp only [datumMerge, Option.some.injEq, Prod.mk.injEq] at h
    exact h.2.1.symm
  | cons p rest ih =>
    intro l conds o c n h
    obtain ⟨k0, v0⟩ := p
    simp only [datumMerge] at h
    split at h
    case _ lv hg =>
      split at h
      case _ res c1 hres =>
        split at h
        case _ o1 c2 n1 hrec =>
          simp only [Option.some.injEq, Prod.mk.injEq] at h
          obtain ⟨-, hc, -⟩ := h
          rw [← hc]
          exact (ih hrec).trans (stats_merge_some hres)
        case _ => simp at h
      case _ => simp at h
    case _ hg => exact ih h

theorem dm_num_key {r : List (String × Datum)} :
    ∀ {l : List (String × Datum)} {conds : List String}
      {o : List (String × Datum)} {c : List String} {n : Nat} {k : String} {a : Nat},
    datumMerge stats_merge l r conds = some (o, c, n) →
    objGet l k = some (.num a) → ∃ b, objGet o k = some (.num b) := by
  induction r with
  | nil =>
    intro l conds o c n k a h hk
    simp only [datumMerge, Option.some.injEq, Prod.mk.injEq] at h
    exact ⟨a, h.1 ▸ hk⟩
  | cons p rest ih =>
    intro l conds o c n k a h hk
    obtain ⟨k0, v0⟩ := p
    simp only [datumMerge] at h
    split at h
    case _ lv hg =>
      split at h
      case _ res c1 hres =>
        split at h
        case _ o1 c2 n1 hrec =>
          simp only [Option.some.injEq, Prod.mk.injEq] at h
          obtain ⟨ho, -, -⟩ := h
          subst ho
          by_cases hkk : k0 = k
          · subst hkk
            rw [hg] at hk
            injection hk with hlv
            subst hlv
            obtain ⟨m, hb, hres2, -⟩ := stats_merge_num hres
            subst hres2
            exact ih hrec (objSet_get_self hg)
          · exact ih hrec (by rw [objSet_get_ne res (fun hh => hkk hh.symm)]; exact hk)
        case _ => simp at h
      case _ => simp at h
    case _ hg => exact ih h (objGet_append_left _ hk)

theorem dm_clean {r : List (String × Datum)} :
    ∀ {l : List (String × Datum)} (conds : List String),
    CleanPairs l → CleanPairs r →
    ∃ o n, datumMerge stats_merge l r conds = some (o, conds, n) ∧ CleanPairs o := by
  induction r with
  | nil =>
    intro l conds hl _
    exact ⟨l, 0, rfl, hl⟩
  | cons p rest ih =>
    intro l conds hl hr
    obtain ⟨k0, v0⟩ := p
    obtain ⟨⟨m, hm⟩, hk1, hk2⟩ := hr (k0, v0) (List.mem_cons_self _ _)
    have hrest : CleanPairs rest := fun q hq => hr q (List.mem_cons_of_mem _ hq)
    subst hm
    cases hg : objGet l k0 with
    | some lv =>
      obtain ⟨al, hal⟩ := (hl (k0, lv) (objGet_mem hg)).1
      subst hal
      obtain ⟨o, n, hmerge, ho⟩ :=
        ih conds (cleanPairs_objSet (l := l) (k := k0) (n := al + m) hl) hrest
      refine ⟨o, n + 1, ?_, ho⟩
      have hsm : stats_merge k0 (Datum.num al) (Datum.num m) conds
          = some (Datum.num (al + m), conds) := rfl
      simp only [datumMerge, hg, hsm, hmerge]
    | none =>
      obtain ⟨o, n, hmerge, ho⟩ :=
        ih conds (@cleanPairs_append l [(k0, Datum.num m)] hl (fun q hq => by
          simp only [List.mem_singleton] at hq
          subst hq
          exact ⟨⟨m, rfl⟩, hk1, hk2⟩)) hrest
      refine ⟨o, n, ?_, ho⟩
      simp only [datumMerge, hg, hmerge]

theorem objGet_append_single_ne {l : List (String × Datum)} {k k1 : String} (v : Datum)
    (h : k ≠ k1) : objGet (l ++ [(k1, v)]) k = objGet l k := by
  cases hg : objGet l k with
  | some w => exact objGet_append_left _ hg
  | none =>
    rw [objGet_append_right _ hg]
    simp only [objGet]
    rw [if_neg (fun hh => h hh.symm)]

theorem add_warning_get_ne (fs : List (String × Datum)) (w : String) {k : String}
    (h : k ≠ "warnings") : objGet (add_warning fs w) k = objGet fs k := by
  unfold add_warning
  split
  · split
    · rfl
    · exact objSet_get_ne _ h
  · rfl
  · exact objGet_append_single_ne _ h

theorem add_warning_fresh {fs : List (String × Datum)} (w : String)
    (h : objGet fs "warnings" = none) :
    add_warning fs w = fs ++ [("warnings", .arr [.str w])] := by
  unfold add_warning
  rw [h]

theorem add_warnings_nil (fs : List (String × Datum)) : add_warnings fs [] = fs := rfl

theorem mgk_present {pkey : String} {limit : Nat} {supply : Nat → String}
    {st : KeyGenState} {fs : List (String × Datum)} {v : Datum}
    (h : objGet fs pkey = some v) :
    maybe_generate_key pkey limit supply st (.obj fs) = some (st, .obj fs, false) := by
  simp only [maybe_generate_key]
  rw [h]

theorem mgk_absent {pkey : String} {limit : Nat} {supply : Nat → String}
    {st : KeyGenState} {fs : List (String × Datum)}
    (h : objGet fs pkey = none) :
    maybe_generate_key pkey limit supply st (.obj fs) =
      some ((if st.generated_keys.length < limit then
              { st with generated_keys := st.generated_keys ++ [supply st.uuids_used],
                        uuids_used := st.uuids_used + 1 }
             else
              { st with keys_skipped := st.keys_skipped + 1,
                        uuids_used := st.uuids_used + 1 }),
            .obj (fs ++ [(pkey, .str (supply st.uuids_used))]), true) := by
  simp only [maybe_generate_key]
  rw [h]
  simp only [builderAdd, objGet, List.nil_append]
  rw [dm_single_absent pure_merge _ _ h]
  simp

theorem mgk_bound {pkey : String} {limit : Nat} {supply : Nat → String}
    {st : KeyGenState} {d : Datum} {r : KeyGenState × Datum × Bool}
    (hb : st.generated_keys.length ≤ limit)
    (h : maybe_generate_key pkey limit supply st d = some r) :
    r.1.generated_keys.length ≤ limit := by
  cases d with
  | obj fs =>
    cases hg : objGet fs pkey with
    | some v =>
      rw [mgk_present hg] at h
      cases h
      exact hb
    | none =>
      rw [mgk_absent hg] at h
      cases h
      by_cases hlt : st.generated_keys.length < limit
      · simp only [hlt, if_pos]
        simpa using hlt
      · simp only [hlt, if_neg, ite_false]
        exact hb
  | null => simp [maybe_generate_key] at h
  | bool b => simp [maybe_generate_key] at h
  | num n => simp [maybe_generate_key] at h
  | str s => simp [maybe_generate_key] at h
  | arr l => simp [maybe_generate_key] at h

theorem ibk_bound {pkey : String} {limit : Nat} {supply : Nat → String} :
    ∀ {docs : List Datum} {st : KeyGenState}, st.generated_keys.length ≤ limit →
    (insert_batch_keys pkey limit supply st docs).1.generated_keys.length ≤ limit := by
  intro docs
  induction docs with
  | nil => intro st h; exact h
  | cons d rest ih =>
    intro st h
    simp only [insert_batch_keys]
    cases hm : maybe_generate_key pkey limit supply st d with
    | some r => exact ih (mgk_bound h hm)
    | none => exact ih h

theorem ibk_len {pkey : String} {limit : Nat} {supply : Nat → String} :
    ∀ {docs : List Datum} {st : KeyGenState},
    (insert_batch_keys pkey limit supply st docs).2.1.length = docs.length := by
  intro docs
  induction docs with
  | nil => intro st; rfl
  | cons d rest ih =>
    intro st
    simp only [insert_batch_keys, List.length_cons]
    rw [ih]

theorem msf_num {stats : List (String × Datum)} {rhs : Datum} {conds : List String}
    {s1 : List (String × Datum)} {c1 : List String} {k : String} {a : Nat}
    (h : mergeStatsFields stats_merge stats rhs conds = some (s1, c1))
    (hk : objGet stats k = some (.num a)) :
    (∃ b, objGet s1 k = some (.num b)) ∧ c1 = conds := by
  cases rhs with
  | obj rs =>
    simp only [mergeStatsFields] at h
    cases hdm : datumMerge stats_merge stats rs conds with
    | none => rw [hdm] at h; simp at h
    | some x =>
      obtain ⟨o, c, n⟩ := x
      rw [hdm] at h
      simp only [Option.map_some', Option.some.injEq, Prod.mk.injEq] at h
      obtain ⟨ho, hc⟩ := h
      subst ho; subst hc
      exact ⟨dm_num_key hdm hk, dm_stats_conds hdm⟩
  | null => simp [mergeStatsFields] at h
  | bool b => simp [mergeStatsFields] at h
  | num n => simp [mergeStatsFields] at h
  | str s => simp [mergeStatsFields] at h
  | arr l => simp [mergeStatsFields] at h

theorem msf_clean (stats : List (String × Datum)) (rhs : Datum) (conds : List String)
    (hc : CleanPairs stats) (hr : CleanStats rhs) :
    ∃ s1, mergeStatsFields stats_merge stats rhs conds = some (s1, conds) ∧
      CleanPairs s1 := by
  cases rhs with
  | obj rs =>
    obtain ⟨o, n, hdm, ho⟩ := dm_clean (l := stats) conds hc hr
    exact ⟨o, by simp [mergeStatsFields, hdm], ho⟩
  | null => exact absurd hr (by simp [CleanStats])
  | bool b => exact absurd hr (by simp [CleanStats])
  | num n => exact absurd hr (by simp [CleanStats])
  | str s => exact absurd hr (by simp [CleanStats])
  | arr l => exact absurd hr (by simp [CleanStats])

theorem msf_clean_of_ok {stats : List (String × Datum)} {rhs : Datum}
    {conds : List String} {s1 : List (String × Datum)} {c1 : List String}
    (h : mergeStatsFields stats_merge stats rhs conds = some (s1, c1))
    (hc : CleanPairs stats) (hr : CleanStats rhs) : CleanPairs s1 ∧ c1 = conds := by
  obtain ⟨s2, h2, hcl⟩ := msf_clean stats rhs conds hc hr
  rw [h] at h2
  injection h2 with h3
  injection h3 with h4 h5
  subst h4; subst h5
  exact ⟨hcl, rfl⟩

theorem il_bound {env : InsertEnv} :
    ∀ {bs : List (List Datum)} {st : KeyGenState} {stats : List (String × Datum)}
      {conds : List String} {calls : List (List Datum × List Bool)},
    st.generated_keys.length ≤ env.limit →
    ((insert_loop env bs st stats conds calls).2.1).generated_keys.length ≤ env.limit := by
  intro bs
  induction bs with
  | nil => intro st stats conds calls h; exact h
  | cons batch rest ih =>
    intro st stats conds calls h
    simp only [insert_loop]
    split
    · exact h
    · split
      · exact ih (ibk_bound h)
      · exact ibk_bound h

theorem il_num {env : InsertEnv} :
    ∀ {bs : List (List Datum)} {st : KeyGenState} {stats : List (String × Datum)}
      {conds : List String} {calls : List (List Datum × List Bool)}
      {s1 : List (String × Datum)} {c1 : List String} {st1 : KeyGenState}
      {calls1 : List (List Datum × List Bool)} {k : String} {a : Nat},
    insert_loop env bs st stats conds calls = (.ok (s1, c1), st1, calls1) →
    objGet stats k = some (.num a) → ∃ b, objGet s1 k = some (.num b) := by
  intro bs
  induction bs with
  | nil =>
    intro st stats conds calls s1 c1 st1 calls1 k a h hk
    simp only [insert_loop, Prod.mk.injEq, Except.ok.injEq] at h
    obtain ⟨⟨hs, -⟩, -, -⟩ := h
    exact ⟨a, hs ▸ hk⟩
  | cons batch rest ih =>
    intro st stats conds calls s1 c1 st1 calls1 k a h hk
    simp only [insert_loop] at h
    split at h
    · simp only [Prod.mk.injEq, Except.ok.injEq] at h
      obtain ⟨⟨hs, -⟩, -, -⟩ := h
      exact ⟨a, hs ▸ hk⟩
    · split at h
      case _ stats1 conds1 hm =>
        obtain ⟨⟨b0, hb0⟩, -⟩ := msf_num hm hk
        exact ih h hb0
      case _ hm => simp at h

theorem il_clean_of_ok {env : InsertEnv}
    (heng : ∀ ds fl, CleanStats (env.batched_insert ds fl)) :
    ∀ {bs : List (List Datum)} {st : KeyGenState} {stats : List (String × Datum)}
      {calls : List (List Datum × List Bool)}
      {s1 : List (String × Datum)} {c1 : List String} {st1 : KeyGenState}
      {calls1 : List (List Datum × List Bool)},
    insert_loop env bs st stats [] calls = (.ok (s1, c1), st1, calls1) →
    CleanPairs stats → CleanPairs s1 ∧ c1 = [] := by
  intro bs
  induction bs with
  | nil =>
    intro st stats calls s1 c1 st1 calls1 h hc
    simp only [insert_loop, Prod.mk.injEq, Except.ok.injEq] at h
    obtain ⟨⟨hs, hcnd⟩, -, -⟩ := h
    exact ⟨hs ▸ hc, hcnd.symm⟩
  | cons batch rest ih =>
    intro st stats calls s1 c1 st1 calls1 h hc
    simp only [insert_loop] at h
    split at h
    · simp only [Prod.mk.injEq, Except.ok.injEq] at h
      obtain ⟨⟨hs, hcnd⟩, -, -⟩ := h
      exact ⟨hs ▸ hc, hcnd.symm⟩
    · split at h
      case _ stats1 conds1 hm =>
        obtain ⟨hclean1, hc1⟩ := msf_clean_of_ok hm hc (heng _ _)
        subst hc1
        exact ih h hclean1
      case _ hm => simp at h

theorem insert_eval_ok_run {env : InsertEnv} {rv : Bool} {rc : Option Datum}
    {conflict dur : Option String} {src : InsertSource} {d : Datum} {tr : InsertTrace}
    (h : insert_eval env rv rc conflict dur src = (.ok d, tr)) :
    ∃ stats conds st calls,
      insert_run env src = (.ok (stats, conds), st, calls) ∧
      tr = ⟨calls, st.generated_keys, st.keys_skipped⟩ ∧
      insert_finalize stats conds st = some d := by
  unfold insert_eval at h
  split at h
  · simp at h
  split at h
  · simp at h
  split at h
  · simp at h
  split at h
  case _ e st calls hrun => simp at h
  case _ stats conds st calls hrun =>
    split at h
    case _ hfin => simp at h
    case _ d1 hfin =>
      simp only [Prod.mk.injEq, Except.ok.injEq] at h
      obtain ⟨hd, htr⟩ := h
      subst hd
      exact ⟨stats, conds, st, calls, hrun, htr.symm, hfin⟩

theorem add_warnings_get_ne (conds : List String) :
    ∀ (fs : List (String × Datum)) {k : String}, k ≠ "warnings" →
    objGet (add_warnings fs conds) k = objGet fs k := by
  induction conds with
  | nil => intro fs k h; rfl
  | cons c rest ih =>
    intro fs k h
    have hstep : add_warnings fs (c :: rest) = add_warnings (add_warning fs c) rest := rfl
    rw [hstep, ih (add_warning fs c) h, add_warning_get_ne fs c h]

theorem insert_finalize_num {stats : List (String × Datum)} {conds : List String}
    {st : KeyGenState} {d : Datum} {k : String} {a : Nat}
    (h : insert_finalize stats conds st = some d)
    (hk : objGet stats k = some (.num a)) (hw : k ≠ "warnings") :
    ∃ b, d.get_field k = some (.num b) := by
  simp only [insert_finalize] at h
  by_cases hlen : st.generated_keys.length > 0
  · rw [if_pos hlen] at h
    cases hdm : datumMerge pure_merge stats
        [("generated_keys", .arr (st.generated_keys.map Datum.str))] conds with
    | none => rw [hdm] at h; simp at h
    | some x =>
      obtain ⟨o, c, n⟩ := x
      rw [hdm] at h
      simp only [Option.map_some'] at h
      obtain ⟨-, -, hpres⟩ := dm_pure hdm
      have hb : objGet o k = some (.num a) := hpres k _ hk
      injection h with hd
      subst hd
      refine ⟨a, ?_⟩
      simp only [Datum.get_field]
      by_cases hsk : st.keys_skipped > 0
      · rw [if_pos hsk, add_warning_get_ne _ _ hw, add_warnings_get_ne _ _ hw]
        exact hb
      · rw [if_neg hsk, add_warnings_get_ne _ _ hw]
        exact hb
  · rw [if_neg hlen] at h
    injection h with hd
    subst hd
    refine ⟨a, ?_⟩
    simp only [Datum.get_field]
    by_cases hsk : st.keys_skipped > 0
    · rw [if_pos hsk, add_warning_get_ne _ _ hw, add_warnings_get_ne _ _ hw]
      exact hk
    · rw [if_neg hsk, add_warnings_get_ne _ _ hw]
      exact hk

theorem insert_finalize_clean_warnings {stats : List (String × Datum)}
    {st : KeyGenState} {d : Datum} (hc : CleanPairs stats)
    (h : insert_finalize stats [] st = some d) (hsk : st.keys_skipped > 0) :
    d.get_field "warnings" = some (.arr [.str
      (truncation_warning (st.keys_skipped + st.generated_keys.length)
        st.generated_keys.length)]) := by
  simp only [insert_finalize] at h
  by_cases hlen : st.generated_keys.length > 0
  · rw [if_pos hlen, dm_single_absent pure_merge _ _ (cleanPairs_genkeys_none hc)] at h
    simp only [Option.map_some'] at h
    injection h with hd
    subst hd
    rw [if_pos hsk]
    have hwn : objGet (add_warnings (stats ++ [("generated_keys",
        Datum.arr (st.generated_keys.map Datum.str))]) []) "warnings" = none := by
      rw [add_warnings_nil, objGet_append_single_ne _ (by decide)]
      exact cleanPairs_warnings_none hc
    simp only [Datum.get_field]
    rw [add_warning_fresh _ hwn, objGet_append_right _ hwn]
    simp [objGet]
  · rw [if_neg hlen] at h
    injection h with hd
    subst hd
    rw [if_pos hsk]
    have hwn : objGet (add_warnings stats []) "warnings" = none := by
      rw [add_warnings_nil]
      exact cleanPairs_warnings_none hc
    simp only [Datum.get_field]
    rw [add_warning_fresh _ hwn, objGet_append_right _ hwn]
    simp [objGet]

theorem insert_finalize_clean_genkeys {stats : List (String × Datum)}
    {st : KeyGenState} {d : Datum} (hc : CleanPairs stats)
    (h : insert_finalize stats [] st = some d) :
    d.get_field "generated_keys" =
      (if st.generated_keys.length > 0
       then some (.arr (st.generated_keys.map Datum.str))
       else none) := by
  simp only [insert_finalize] at h
  by_cases hlen : st.generated_keys.length > 0
  · rw [if_pos hlen, dm_single_absent pure_merge _ _ (cleanPairs_genkeys_none hc)] at h
    simp only [Option.map_some'] at h
    injection h with hd
    subst hd
    rw [if_pos hlen]
    have hg1 : objGet (stats ++ [("generated_keys",
        Datum.arr (st.generated_keys.map Datum.str))]) "generated_keys"
        = some (Datum.arr (st.generated_keys.map Datum.str)) := by
      rw [objGet_append_right _ (cleanPairs_genkeys_none hc)]
      simp [objGet]
    simp only [Datum.get_field]
    by_cases hsk : st.keys_skipped > 0
    · rw [if_pos hsk, add_warning_get_ne _ _ (by decide), add_warnings_get_ne _ _ (by decide)]
      exact hg1
    · rw [if_neg hsk, add_warnings_get_ne _ _ (by decide)]
      exact hg1
  · rw [if_neg hlen] at h
    injection h with hd
    subst hd
    rw [if_neg hlen]
    simp only [Datum.get_field]
    by_cases hsk : st.keys_skipped > 0
    · rw [if_pos hsk, add_warning_get_ne _ _ (by decide), add_warnings_get_ne _ _ (by decide)]
      exact cleanPairs_genkeys_none hc
    · rw [if_neg hsk, add_warnings_get_ne _ _ (by decide)]
      exact cleanPairs_genkeys_none hc

theorem projectBatch_ok {pkey : String} :
    ∀ {b : List Datum}, (∀ d ∈ b, ∃ v, Datum.get_field d pkey = some v) →
    projectBatch pkey b = .ok (projList pkey b) := by
  intro b
  induction b with
  | nil => intro h; rfl
  | cons d rest ih =>
    intro h
    obtain ⟨v, hv⟩ := h d (List.mem_cons_self _ _)
    have hpr : project_row pkey d = .ok v := by
      cases d with
      | obj fs =>
        simp only [Datum.get_field] at hv
        simp [project_row, hv]
      | null => simp [Datum.get_field] at hv
      | bool x => simp [Datum.get_field] at hv
      | num n => simp [Datum.get_field] at hv
      | str s => simp [Datum.get_field] at hv
      | arr l => simp [Datum.get_field] at hv
    have hrest := ih (fun q hq => h q (List.mem_cons_of_mem _ hq))
    simp only [projectBatch, hpr, hrest, projList, List.map_cons]
    have hvd : (Datum.get_field d pkey).getD Datum.null = v := by
      rw [hv]; rfl
    rw [hvd]

theorem rl_num {env : ReplaceEnv} {det : Bool} :
    ∀ {bs : List (List Datum)} {stats : List (String × Datum)} {conds : List String}
      {calls : List EngineCall} {pulls : Nat} {s1 : List (String × Datum)}
      {c1 : List String} {calls1 : List EngineCall} {pulls1 : Nat} {k : String} {a : Nat},
    replace_loop env det bs stats conds calls pulls = (.ok (s1, c1), calls1, pulls1) →
    objGet stats k = some (.num a) → ∃ b, objGet s1 k = some (.num b) := by
  intro bs
  induction bs with
  | nil =>
    intro stats conds calls pulls s1 c1 calls1 pulls1 k a h hk
    simp only [replace_loop, Prod.mk.injEq, Except.ok.injEq] at h
    obtain ⟨⟨hs, -⟩, -, -⟩ := h
    exact ⟨a, hs ▸ hk⟩
  | cons batch rest ih =>
    intro stats conds calls pulls s1 c1 calls1 pulls1 k a h hk
    simp only [replace_loop] at h
    split at h
    · simp only [Prod.mk.injEq, Except.ok.injEq] at h
      obtain ⟨⟨hs, -⟩, -, -⟩ := h
      exact ⟨a, hs ▸ hk⟩
    · split at h
      · split at h
        case _ => simp at h
        case _ vals hproj =>
          split at h
          case _ s2 c2 hm =>
            obtain ⟨⟨b0, hb0⟩, -⟩ := msf_num hm hk
            exact ih h hb0
          case _ => simp at h
      · split at h
        case _ => simp at h
        case _ keys hproj =>
          split at h
          case _ s2 c2 hm =>
            obtain ⟨⟨b0, hb0⟩, -⟩ := msf_num hm hk
            exact ih h hb0
          case _ => simp at h

theorem rl_clean_det {env : ReplaceEnv}
    (heng : ∀ vs ks, CleanStats (env.batched_replace vs ks)) :
    ∀ {bs : List (List Datum)},
    (∀ b ∈ bs, b ≠ []) →
    (∀ b ∈ bs, ∀ d ∈ b, ∃ v, Datum.get_field d env.pkey = some v) →
    ∀ {stats : List (String × Datum)} {calls : List EngineCall} {pulls : Nat},
    CleanPairs stats →
    ∃ s1, replace_loop env true bs stats [] calls pulls
      = (.ok (s1, []),
         calls ++ bs.map (fun b =>
           EngineCall.batchedReplace (projList env.pkey b) (projList env.pkey b)),
         pulls + bs.length) ∧ CleanPairs s1 := by
  intro bs
  induction bs with
  | nil =>
    intro hne hkeys stats calls pulls hc
    exact ⟨stats, by simp [replace_loop], hc⟩
  | cons batch rest ih =>
    intro hne hkeys stats calls pulls hc
    have hbne : batch.isEmpty = false := by
      cases batch with
      | nil => exact absurd rfl (hne [] (List.mem_cons_self _ _))
      | cons x xs => rfl
    have hproj : projectBatch env.pkey batch = .ok (projList env.pkey batch) :=
      projectBatch_ok (hkeys batch (List.mem_cons_self _ _))
    obtain ⟨s2, hm, hc2⟩ := msf_clean stats
      (env.batched_replace (projList env.pkey batch) (projList env.pkey batch))
      [] hc (heng _ _)
    obtain ⟨s1, hloop, hc1⟩ := @ih
      (fun b hb => hne b (List.mem_cons_of_mem _ hb))
      (fun b hb => hkeys b (List.mem_cons_of_mem _ hb))
      s2
      (calls ++
        [.batchedReplace (projList env.pkey batch) (projList env.pkey batch)])
      (pulls + 1) hc2
    refine ⟨s1, ?_, hc1⟩
    simp only [replace_loop, hbne, Bool.false_eq_true, if_false, if_true, hproj, hm]
    rw [hloop]
    simp only [Prod.mk.injEq]
    refine ⟨trivial, ?_, ?_⟩
    · simp
    · simp only [List.length_cons]
      omega

theorem rl_clean_nondet {env : ReplaceEnv}
    (heng : ∀ vs ks, CleanStats (env.batched_replace vs ks)) :
    ∀ {bs : List (List Datum)},
    (∀ b ∈ bs, b ≠ []) →
    (∀ b ∈ bs, ∀ d ∈ b, ∃ v, Datum.get_field d env.pkey = some v) →
    ∀ {stats : List (String × Datum)} {calls : List EngineCall} {pulls : Nat},
    CleanPairs stats →
    ∃ s1, replace_loop env false bs stats [] calls pulls
      = (.ok (s1, []),
         calls ++ bs.map (fun b =>
           EngineCall.batchedReplace b (projList env.pkey b)),
         pulls + bs.length) ∧ CleanPairs s1 := by
  intro bs
  induction bs with
  | nil =>
    intro hne hkeys stats calls pulls hc
    exact ⟨stats, by simp [replace_loop], hc⟩
  | cons batch rest ih =>
    intro hne hkeys stats calls pulls hc
    have hbne : batch.isEmpty = false := by
      cases batch with
      | nil => exact absurd rfl (hne [] (List.mem_cons_self _ _))
      | cons x xs => rfl
    have hproj : projectBatch env.pkey batch = .ok (projList env.pkey batch) :=
      projectBatch_ok (hkeys batch (List.mem_cons_self _ _))
    obtain ⟨s2, hm, hc2⟩ := msf_clean stats
      (env.batched_replace batch (projList env.pkey batch))
      [] hc (heng _ _)
    obtain ⟨s1, hloop, hc1⟩ := @ih
      (fun b hb => hne b (List.mem_cons_of_mem _ hb))
      (fun b hb => hkeys b (List.mem_cons_of_mem _ hb))
      s2
      (calls ++ [.batchedReplace batch (projList env.pkey batch)])
      (pulls + 1) hc2
    refine ⟨s1, ?_, hc1⟩
    simp only [replace_loop, hbne, Bool.false_eq_true, if_false, hproj, hm]
    rw [hloop]
    simp only [Prod.mk.injEq]
    refine ⟨trivial, ?_, ?_⟩
    · simp
    · simp only [List.length_cons]
      omega

theorem prc_error_logic {rv : Bool} {rc : Option Datum} {e : RError}
    (h : parse_return_changes rv rc = .error e) : e.typ = .LOGIC := by
  unfold parse_return_changes at h
  split at h
  · injection h with he
    subst he
    rfl
  · split at h
    · simp at h
    · split at h
      · simp at h
      · injection h with he
        subst he
        rfl
    · simp at h
    · injection h with he
      subst he
      rfl

theorem pdo_error_logic {dur : Option String} {e : RError}
    (h : parse_durability_optarg dur = .error e) : e.typ = .LOGIC := by
  unfold parse_durability_optarg at h
  split at h
  · simp at h
  · split at h
    · simp at h
    · split at h
      · simp at h
      · injection h with he
        subst he
        rfl

theorem pco_error_logic {cf : Option String} {e : RError}
    (h : parse_conflict_optarg cf = .error e) : e.typ = .LOGIC := by
  unfold parse_conflict_optarg at h
  split at h
  · simp at h
  · split at h
    · simp at h
    · split at h
      · simp at h
      · split at h
        · simp at h
        · injection h with he
          subst he
          rfl

theorem interpret_clean {d : Datum} {stats : List (String × Datum)}
    (hc : CleanPairs stats) (hd : CleanStats d) :
    ∃ s1, interpret_row_result d stats [] = .ok (s1, []) ∧ CleanPairs s1 := by
  cases d with
  | obj rs =>
    obtain ⟨o, n, hdm, ho⟩ := dm_clean (l := stats) [] hc hd
    exact ⟨o, by simp [interpret_row_result, hdm], ho⟩
  | null => exact absurd hd (by simp [CleanStats])
  | bool b => exact absurd hd (by simp [CleanStats])
  | num n => exact absurd hd (by simp [CleanStats])
  | str s => exact absurd hd (by simp [CleanStats])
  | arr l => exact absurd hd (by simp [CleanStats])

theorem fl_clean_run {fbt : Nat} {f : Datum → Except RError Datum} :
    ∀ {rows : List Datum} {tail : List Datum} {stats : List (String × Datum)} {n : Nat},
    (∀ r ∈ rows, ∃ d, f r = .ok d ∧ CleanStats d) → CleanPairs stats →
    ∃ s1, foreach_loop fbt f (rows ++ tail) stats [] n
        = foreach_loop fbt f tail s1 [] (n + rows.length) ∧ CleanPairs s1 := by
  intro rows
  induction rows with
  | nil =>
    intro tail stats n _ hc
    exact ⟨stats, by simp, hc⟩
  | cons r rest ih =>
    intro tail stats n hr hc
    obtain ⟨d, hf, hd⟩ := hr r (List.mem_cons_self _ _)
    obtain ⟨s2, hint, hc2⟩ := interpret_clean hc hd
    obtain ⟨s1, hloop, hc1⟩ := @ih tail s2 (n + 1)
      (fun q hq => hr q (List.mem_cons_of_mem _ hq)) hc2
    refine ⟨s1, ?_, hc1⟩
    simp only [List.cons_append, foreach_loop, hf, hint]
    show foreach_loop fbt f (rest ++ tail) s2 [] (n + 1) = _
    rw [hloop]
    simp only [List.length_cons]
    congr 1
    omega

theorem interpret_scalar {d : Datum} (h1 : ∀ fs, d ≠ .obj fs) (h2 : ∀ l, d ≠ .arr l) :
    ∀ (stats : List (String × Datum)) (conds : List String),
    interpret_row_result d stats conds =
      .error ⟨.LOGIC, s!"Expected type ARRAY but found {type_name d}.", .noBt⟩ := by
  intro stats conds
  cases d with
  | obj fs => exact absurd rfl (h1 fs)
  | arr l => exact absurd rfl (h2 l)
  | null => rfl
  | bool b => rfl
  | num n => rfl
  | str s => rfl

theorem addO_assoc (a b c : Option Nat) : addO (addO a b) c = addO a (addO b c) := by
  cases a <;> cases b <;> cases c <;> simp [addO] <;> omega

theorem addO_comm (a b : Option Nat) : addO a b = addO b a := by
  cases a <;> cases b <;> simp [addO] <;> omega

theorem objGet_none_of_not_mem_fst {l : List (String × Datum)} {k : String}
    (h : k ∉ l.map Prod.fst) : objGet l k = none :=
  objGet_none_of_not_key (fun p hp hk => h (hk ▸ List.mem_map_of_mem Prod.fst hp))

theorem statsWF_objSet {l : List (String × Datum)} {k : String} {n : Nat}
    (h : StatsWFFields l) : StatsWFFields (objSet l k (.num n)) := by
  constructor
  · rw [objSet_map_fst]
    exact h.1
  · intro p hp
    rcases objSet_mem hp with h1 | ⟨w, hw, hpw⟩
    · exact h.2 p h1
    · subst hpw
      exact ⟨n, rfl⟩

theorem statsWF_append_single {l : List (String × Datum)} {k : String} {m : Nat}
    (h : StatsWFFields l) (hk : objGet l k = none) :
    StatsWFFields (l ++ [(k, .num m)]) := by
  constructor
  · rw [List.map_append]
    refine List.Nodup.append h.1 (List.nodup_singleton k) ?_
    intro a ha hb
    simp only [List.map_cons, List.map_nil, List.mem_singleton] at hb
    subst hb
    obtain ⟨p, hp, hpa⟩ := List.mem_map.mp ha
    exact objGet_none_key hk p hp hpa
  · intro p hp
    rcases List.mem_append.mp hp with h1 | h1
    · exact h.2 p h1
    · simp only [List.mem_singleton] at h1
      subst h1
      exact ⟨m, rfl⟩

theorem dm_sum {r : List (String × Datum)} :
    ∀ {l : List (String × Datum)} (conds : List String),
    StatsWFFields l → StatsWFFields r →
    ∃ o n, datumMerge stats_merge l r conds = some (o, conds, n) ∧ StatsWFFields o ∧
      ∀ k, numAt o k = addO (numAt l k) (numAt r k) := by
  induction r with
  | nil =>
    intro l conds hl _
    refine ⟨l, 0, rfl, hl, fun k => ?_⟩
    cases hx : numAt l k <;> simp [numAt, objGet, addO, hx]
  | cons p rest ih =>
    intro l conds hl hr
    obtain ⟨k0, v0⟩ := p
    have hnodup := hr.1
    simp only [List.map_cons, List.nodup_cons] at hnodup
    obtain ⟨hk0notin, hrestnodup⟩ := hnodup
    obtain ⟨m, hm⟩ := hr.2 (k0, v0) (List.mem_cons_self _ _)
    simp only at hm
    subst hm
    have hrest : StatsWFFields rest :=
      ⟨hrestnodup, fun q hq => hr.2 q (List.mem_cons_of_mem _ hq)⟩
    have hrestk0 : objGet rest k0 = none := objGet_none_of_not_mem_fst hk0notin
    cases hg : objGet l k0 with
    | some lv =>
      obtain ⟨al, hal⟩ := hl.2 (k0, lv) (objGet_mem hg)
      simp only at hal
      subst hal
      obtain ⟨o, n, hdm, ho, hsum⟩ := ih conds (statsWF_objSet (k := k0) (n := al + m) hl) hrest
      refine ⟨o, n + 1, ?_, ho, ?_⟩
      · have hsm : stats_merge k0 (Datum.num al) (Datum.num m) conds
            = some (Datum.num (al + m), conds) := rfl
        simp only [datumMerge, hg, hsm, hdm]
      · intro k
        by_cases hkk : k0 = k
        · subst hkk
          rw [hsum k0]
          simp [numAt, objSet_get_self hg, hrestk0, objGet, hg, addO]
        · rw [hsum k]
          simp only [numAt, objSet_get_ne _ (fun hh => hkk hh.symm), objGet,
            if_neg hkk]
    | none =>
      obtain ⟨o, n, hdm, ho, hsum⟩ := ih conds (statsWF_append_single (m := m) hl hg) hrest
      refine ⟨o, n, ?_, ho, ?_⟩
      · simp only [datumMerge, hg, hdm]
      · intro k
        by_cases hkk : k0 = k
        · subst hkk
          rw [hsum k0]
          have h1 : objGet (l ++ [(k0, Datum.num m)]) k0 = some (Datum.num m) := by
            rw [objGet_append_right _ hg]
            simp [objGet]
          simp [numAt, h1, hrestk0, hg, objGet, addO]
        · rw [hsum k]
          simp only [numAt, objGet_append_single_ne _ (fun hh => hkk hh.symm), objGet,
            if_neg hkk]

theorem new_stats_fields_clean : CleanPairs new_stats_fields := by
  intro p hp
  simp only [new_stats_fields, List.mem_cons, List.not_mem_nil, or_false] at hp
  rcases hp with h | h | h | h | h | h <;> subst h <;>
    exact ⟨⟨0, rfl⟩, by decide, by decide⟩

theorem new_stats_fields_wf : StatsWFFields new_stats_fields := by
  constructor
  · decide
  · intro p hp
    simp only [new_stats_fields, List.mem_cons, List.not_mem_nil, or_false] at hp
    rcases hp with h | h | h | h | h | h <;> subst h <;> exact ⟨0, rfl⟩

theorem new_stats_fields_get {k : String} (hk : k ∈ statKeys) :
    objGet new_stats_fields k = some (.num 0) := by
  simp only [statKeys, List.mem_cons, List.not_mem_nil, or_false] at hk
  rcases hk with h | h | h | h | h | h <;> subst h <;> rfl

theorem statKeys_ne_warnings {k : String} (hk : k ∈ statKeys) : k ≠ "warnings" := by
  simp only [statKeys, List.mem_cons, List.not_mem_nil, or_false] at hk
  rcases hk with h | h | h | h | h | h <;> subst h <;> decide

theorem ir_num {env : InsertEnv} {src : InsertSource}
    {stats : List (String × Datum)} {conds : List String} {st : KeyGenState}
    {calls : List (List Datum × List Bool)} {k : String} {a : Nat}
    (h : insert_run env src = (.ok (stats, conds), st, calls))
    (hk : objGet new_stats_fields k = some (.num a)) :
    ∃ b, objGet stats k = some (.num b) := by
  cases src with
  | single fs =>
    simp only [insert_run] at h
    split at h
    case _ s1 c1 hm =>
      simp only [Prod.mk.injEq, Except.ok.injEq] at h
      obtain ⟨⟨hs, -⟩, -, -⟩ := h
      obtain ⟨⟨b, hb⟩, -⟩ := msf_num hm hk
      exact ⟨b, hs ▸ hb⟩
    case _ => simp at h
  | batches bs =>
    simp only [insert_run] at h
    exact il_num h hk

theorem ir_bound {env : InsertEnv} {src : InsertSource} :
    ((insert_run env src).2.1).generated_keys.length ≤ env.limit := by
  cases src with
  | single fs =>
    simp only [insert_run]
    have hstep : ∀ r, maybe_generate_key env.pkey env.limit env.supply ⟨[], 0, 0⟩
        (.obj fs) = some r → r.1.generated_keys.length ≤ env.limit :=
      fun r hr => mgk_bound (by simp) hr
    cases hm : maybe_generate_key env.pkey env.limit env.supply ⟨[], 0, 0⟩ (.obj fs) with
    | some r =>
      split
      · exact hstep r hm
      · exact hstep r hm
    | none =>
      split
      · simp
      · simp
  | batches bs =>
    simp only [insert_run]
    exact il_bound (by simp)

theorem ir_clean_of_ok {env : InsertEnv}
    (heng : ∀ ds fl, CleanStats (env.batched_insert ds fl))
    {src : InsertSource} {stats : List (String × Datum)} {conds : List String}
    {st : KeyGenState} {calls : List (List Datum × List Bool)}
    (h : insert_run env src = (.ok (stats, conds), st, calls)) :
    CleanPairs stats ∧ conds = [] := by
  cases src with
  | single fs =>
    simp only [insert_run] at h
    split at h
    case _ s1 c1 hm =>
      simp only [Prod.mk.injEq, Except.ok.injEq] at h
      obtain ⟨⟨hs, hcnd⟩, -, -⟩ := h
      obtain ⟨hclean, hc⟩ := msf_clean_of_ok hm new_stats_fields_clean (heng _ _)
      exact ⟨hs ▸ hclean, hcnd ▸ hc⟩
    case _ => simp at h
  | batches bs =>
    simp only [insert_run] at h
    exact il_clean_of_ok heng h new_stats_fields_clean

theorem ie_trace_eq_run (env : InsertEnv) (rv : Bool) (rc : Option Datum)
    (cf dur : Option String) (src : InsertSource) :
    (insert_eval env rv rc cf dur src).2 = ⟨[], [], 0⟩ ∨
    (insert_eval env rv rc cf dur src).2 =
      ⟨(insert_run env src).2.2, (insert_run env src).2.1.generated_keys,
       (insert_run env src).2.1.keys_skipped⟩ := by
  simp only [insert_eval]
  split
  · exact Or.inl rfl
  split
  · exact Or.inl rfl
  split
  · exact Or.inl rfl
  split
  case _ e st calls hrun => exact Or.inr (by rw [hrun])
  case _ stats conds st calls hrun =>
    split
    · exact Or.inr (by rw [hrun])
    · exact Or.inr (by rw [hrun])

theorem replace_eval_ok_num {env : ReplaceEnv} {na : Option Bool} {rv : Bool}
    {rc : Option Datum} {dur : Option String} {det : Bool} {tgt : ReplaceTarget}
    {d : Datum} {tr : ReplaceTrace}
    (h : replace_eval env na rv rc dur det tgt = (.ok d, tr)) :
    ∀ k ∈ statKeys, ∃ n, d.get_field k = some (.num n) := by
  intro k hk
  have hk0 : objGet new_stats_fields k = some (.num 0) := new_stats_fields_get hk
  have hkw : k ≠ "warnings" := statKeys_ne_warnings hk
  simp only [replace_eval] at h
  split at h
  · simp at h
  split at h
  · simp at h
  split at h
  · simp at h
  · split at h
    · split at h
      case _ s1 c1 hm =>
        simp only [Prod.mk.injEq, Except.ok.injEq] at h
        obtain ⟨hd, -⟩ := h
        subst hd
        obtain ⟨⟨b, hb⟩, -⟩ := msf_num hm hk0
        refine ⟨b, ?_⟩
        simp only [Datum.get_field]
        rw [add_warnings_get_ne _ _ hkw]
        exact hb
      case _ => simp at h
    · split at h
      case _ s c calls pulls hloop =>
        simp only [Prod.mk.injEq, Except.ok.injEq] at h
        obtain ⟨hd, -⟩ := h
        subst hd
        obtain ⟨b, hb⟩ := rl_num hloop hk0
        refine ⟨b, ?_⟩
        simp only [Datum.get_field]
        rw [add_warnings_get_ne _ _ hkw]
        exact hb
      case _ e calls pulls hloop => simp at h

/-- C1: for every replace/update request where the `non_atomic` opt-in
is false and the transformation-function argument is not provably
deterministic, the evaluation fails with a LOGIC-class (ArgumentError)
error, and the trace shows no key-extraction projection attached, no
table-engine call made, and no batch pulled from the stream. -/
theorem replace_determinism_gate (env : ReplaceEnv) (non_atomic : Option Bool)
    (rv_present : Bool) (rc : Option Datum) (dur : Option String)
    (target : ReplaceTarget) (hna : non_atomic.getD false = false) :
    ∃ e, replace_eval env non_atomic rv_present rc dur false target
        = (.error e, ⟨false, [], 0⟩) ∧ e.typ = .LOGIC := by
  simp only [replace_eval, hna]
  cases hp : parse_return_changes rv_present rc with
  | error e => exact ⟨e, rfl, prc_error_logic hp⟩
  | ok x =>
    cases hd : parse_durability_optarg dur with
    | error e => exact ⟨e, rfl, pdo_error_logic hd⟩
    | ok y => exact ⟨determinism_gate_error, rfl, rfl⟩

/-- Witness for the C1 theorem at a concrete request. -/
theorem replace_determinism_gate_witness :
    ∃ e, replace_eval c6env none false none none false .single
        = (.error e, ⟨false, [], 0⟩) ∧ e.typ = .LOGIC :=
  replace_determinism_gate c6env none false none none .single rfl

/-- C4: a document that already has the primary-key field is returned
unchanged with the autogenerated flag false and an unchanged key-state;
a document lacking it gets exactly one new top-level field — the
primary-key field bound to the fresh key drawn from the supply, rendered
as a string — with the flag true and one more supply index consumed. -/
theorem maybe_generate_key_spec (pkey : String) (limit : Nat) (supply : Nat → String)
    (st : KeyGenState) (fs : List (String × Datum)) :
    (∀ v, Datum.get_field (.obj fs) pkey = some v →
      maybe_generate_key pkey limit supply st (.obj fs) = some (st, .obj fs, false))
    ∧ (Datum.get_field (.obj fs) pkey = none →
      ∃ st1, maybe_generate_key pkey limit supply st (.obj fs)
          = some (st1, .obj (fs ++ [(pkey, .str (supply st.uuids_used))]), true)
        ∧ st1.uuids_used = st.uuids_used + 1) := by
  constructor
  · intro v hv
    exact mgk_present hv
  · intro hnone
    refine ⟨_, mgk_absent hnone, ?_⟩
    by_cases hlt : st.generated_keys.length < limit
    · simp [hlt]
    · simp [hlt]

/-- Witness for the C4 theorem at a concrete document. -/
theorem maybe_generate_key_spec_witness :
    maybe_generate_key "id" 5 (fun _ => "k0") ⟨[], 0, 0⟩ (.obj [("id", .num 1)])
      = some (⟨[], 0, 0⟩, .obj [("id", .num 1)], false) :=
  (maybe_generate_key_spec "id" 5 (fun _ => "k0") ⟨[], 0, 0⟩ [("id", .num 1)]).1
    (.num 1) rfl

/-- C9: when the key generator synthesizes a primary-key field for a
document lacking it, the builder add reports no conflict, the merge
invokes the `pure_merge` conflict callback zero times, and the condition
set stays empty — the three `r_sanity_check` assertions on that path
hold. -/
theorem keygen_sanity_checks (fs : List (String × Datum)) (pkey : String) (v : Datum)
    (h : objGet fs pkey = none) :
    builderAdd [] pkey v = ([(pkey, v)], false)
    ∧ datumMerge pure_merge fs [(pkey, v)] [] = some (fs ++ [(pkey, v)], [], 0) :=
  ⟨rfl, dm_single_absent pure_merge v [] h⟩

/-- Witness for the C9 theorem at a concrete document. -/
theorem keygen_sanity_checks_witness :
    builderAdd [] "id" (.str "k0") = ([("id", .str "k0")], false)
    ∧ datumMerge pure_merge [("a", .num 1)] [("id", .str "k0")] []
      = some ([("a", .num 1), ("id", .str "k0")], [], 0) :=
  keygen_sanity_checks [("a", .num 1)] "id" (.str "k0") rfl

/-- C8: option validation — a conflict value other than exactly
"error"/"replace"/"update" is rejected with a LOGIC error (absence
defaults to Error); a durability value other than "hard"/"soft" is
rejected (absence means Default); a `return_changes` string other than
"always" is rejected while booleans map to Yes/No; and the presence of
the deprecated `return_vals` option is always rejected with the fixed
migration message, regardless of its value. -/
theorem write_optargs_validation :
    (parse_conflict_optarg none = .ok .ERROR)
  ∧ (parse_conflict_optarg (some "error") = .ok .ERROR)
  ∧ (parse_conflict_optarg (some "replace") = .ok .REPLACE)
  ∧ (parse_conflict_optarg (some "update") = .ok .UPDATE)
  ∧ (∀ s, s ≠ "error" → s ≠ "replace" → s ≠ "update" →
      ∃ e, parse_conflict_optarg (some s) = .error e ∧ e.typ = .LOGIC)
  ∧ (parse_durability_optarg none = .ok .DEFAULT)
  ∧ (parse_durability_optarg (some "hard") = .ok .HARD)
  ∧ (parse_durability_optarg (some "soft") = .ok .SOFT)
  ∧ (∀ s, s ≠ "hard" → s ≠ "soft" →
      ∃ e, parse_durability_optarg (some s) = .error e ∧ e.typ = .LOGIC)
  ∧ (parse_return_changes false none = .ok .NO)
  ∧ (∀ b, parse_return_changes false (some (.bool b)) = .ok (if b then .YES else .NO))
  ∧ (parse_return_changes false (some (.str "always")) = .ok .ALWAYS)
  ∧ (∀ s, s ≠ "always" →
      ∃ e, parse_return_changes false (some (.str s)) = .error e ∧ e.typ = .LOGIC)
  ∧ (∀ rc, parse_return_changes true rc
      = .error ⟨.LOGIC, return_vals_msg, .bt 0 false⟩) := by
  refine ⟨rfl, rfl, rfl, rfl, ?_, rfl, rfl, rfl, ?_, rfl, ?_, rfl, ?_, ?_⟩
  · intro s h1 h2 h3
    refine ⟨⟨.LOGIC,
      s!"Conflict option `{s}` unrecognized (options are \"error\", \"replace\" and \"update\").",
      .bt 0 false⟩, ?_, rfl⟩
    simp only [parse_conflict_optarg, if_neg h1, if_neg h2, if_neg h3]
  · intro s h1 h2
    refine ⟨⟨.LOGIC,
      s!"Durability option `{s}` unrecognized (options are \"hard\" and \"soft\").",
      .bt 0 false⟩, ?_, rfl⟩
    simp only [parse_durability_optarg, if_neg h1, if_neg h2]
  · intro b
    cases b <;> rfl
  · intro s h1
    refine ⟨⟨.LOGIC,
      s!"Invalid return_changes value `{s}` (options are `true`, `false`, and `\x27always\x27`.)",
      .bt 0 false⟩, ?_, rfl⟩
    simp only [parse_return_changes, if_neg h1, Bool.false_eq_true, if_false]
  · intro rc
    rfl

/-- Witness for the C8 theorem at concrete rejected values. -/
theorem write_optargs_validation_witness :
    (∃ e, parse_conflict_optarg (some "bogus") = .error e ∧ e.typ = .LOGIC)
    ∧ (∃ e, parse_durability_optarg (some "medium") = .error e ∧ e.typ = .LOGIC)
    ∧ (∃ e, parse_return_changes false (some (.str "sometimes")) = .error e
        ∧ e.typ = .LOGIC) :=
  ⟨write_optargs_validation.2.2.2.2.1 "bogus" (by decide) (by decide) (by decide),
   write_optargs_validation.2.2.2.2.2.2.2.2.1 "medium" (by decide) (by decide),
   write_optargs_validation.2.2.2.2.2.2.2.2.2.2.2.2.1 "sometimes" (by decide)⟩

/-- C3: the stats merge is associative and commutative on the numeric
counters: for well-formed stats objects the counter value at every key
agrees between the two association orders and between the two argument
orders, so batching never changes final totals. -/
theorem stats_merge_assoc_comm (a b c : List (String × Datum))
    (ha : StatsWFFields a) (hb : StatsWFFields b) (hc : StatsWFFields c) :
    (∀ k, (stats_merge_fields a b).bind (fun ab =>
        (stats_merge_fields ab c).bind (fun o => numAt o k))
      = (stats_merge_fields b c).bind (fun bc =>
        (stats_merge_fields a bc).bind (fun o => numAt o k)))
    ∧ (∀ k, (stats_merge_fields a b).bind (fun o => numAt o k)
      = (stats_merge_fields b a).bind (fun o => numAt o k)) := by
  obtain ⟨ab, nab, hab, hwfab, hsumab⟩ := dm_sum (l := a) (r := b) [] ha hb
  obtain ⟨ba, nba, hba, hwfba, hsumba⟩ := dm_sum (l := b) (r := a) [] hb ha
  obtain ⟨bc, nbc, hbc, hwfbc, hsumbc⟩ := dm_sum (l := b) (r := c) [] hb hc
  obtain ⟨o1, n1, ho1, hwf1, hsum1⟩ := dm_sum (l := ab) (r := c) [] hwfab hc
  obtain ⟨o2, n2, ho2, hwf2, hsum2⟩ := dm_sum (l := a) (r := bc) [] ha hwfbc
  constructor
  · intro k
    simp only [stats_merge_fields, hab, hbc, Option.map_some', Option.some_bind, ho1, ho2]
    rw [hsum1 k, hsum2 k, hsumab k, hsumbc k, addO_assoc]
  · intro k
    simp only [stats_merge_fields, hab, hba, Option.map_some', Option.some_bind]
    rw [hsumab k, hsumba k, addO_comm]

/-- Witness for the C3 theorem at concrete stats objects. -/
theorem stats_merge_assoc_comm_witness :
    (stats_merge_fields new_stats_fields new_stats_fields).bind (fun ab =>
      (stats_merge_fields ab new_stats_fields).bind (fun o => numAt o "inserted"))
    = (stats_merge_fields new_stats_fields new_stats_fields).bind (fun bc =>
      (stats_merge_fields new_stats_fields bc).bind (fun o => numAt o "inserted")) :=
  (stats_merge_assoc_comm new_stats_fields new_stats_fields new_stats_fields
    new_stats_fields_wf new_stats_fields_wf new_stats_fields_wf).1 "inserted"

/-- C2: across a whole insert request the generated-keys collection
never exceeds the configured limit; a document beyond the limit that
needed a key still gets a valid key merged in (so its write proceeds)
while only the per-request skipped counter grows; and a non-zero skip
count produces exactly one aggregated truncation warning for the whole
request. -/
theorem insert_generated_keys_capped :
    (∀ (env : InsertEnv) (rv : Bool) (rc : Option Datum) (cf dur : Option String)
       (src : InsertSource),
       ((insert_eval env rv rc cf dur src).2).generated_keys.length ≤ env.limit)
  ∧ (∀ (pkey : String) (limit : Nat) (supply : Nat → String) (st : KeyGenState)
       (fs : List (String × Datum)),
       limit ≤ st.generated_keys.length → objGet fs pkey = none →
       maybe_generate_key pkey limit supply st (.obj fs)
         = some ({ st with keys_skipped := st.keys_skipped + 1,
                           uuids_used := st.uuids_used + 1 },
                 .obj (fs ++ [(pkey, .str (supply st.uuids_used))]), true))
  ∧ (∀ (env : InsertEnv), (∀ ds fl, CleanStats (env.batched_insert ds fl)) →
       ∀ (rv : Bool) (rc : Option Datum) (cf dur : Option String)
         (src : InsertSource) (d : Datum) (tr : InsertTrace),
       insert_eval env rv rc cf dur src = (.ok d, tr) → tr.keys_skipped > 0 →
       d.get_field "warnings" = some (.arr [.str (truncation_warning
         (tr.keys_skipped + tr.generated_keys.length) tr.generated_keys.length)])) := by
  refine ⟨?_, ?_, ?_⟩
  · intro env rv rc cf dur src
    rcases ie_trace_eq_run env rv rc cf dur src with h | h
    · rw [h]
      simp
    · rw [h]
      exact ir_bound
  · intro pkey limit supply st fs h1 h2
    rw [mgk_absent h2, if_neg (Nat.not_lt.mpr h1)]
  · intro env heng rv rc cf dur src d tr h hsk
    obtain ⟨stats, conds, st, calls, hrun, htr, hfin⟩ := insert_eval_ok_run h
    obtain ⟨hclean, hcnd⟩ := ir_clean_of_ok heng hrun
    subst hcnd
    subst htr
    exact insert_finalize_clean_warnings hclean hfin hsk

/-- Witness for the C2 theorem at a concrete beyond-limit document. -/
theorem insert_generated_keys_capped_witness :
    maybe_generate_key "id" 0 (fun _ => "k0") ⟨[], 0, 0⟩ (.obj [])
      = some (⟨[], 1, 1⟩, .obj [("id", .str "k0")], true) :=
  insert_generated_keys_capped.2.1 "id" 0 (fun _ => "k0") ⟨[], 0, 0⟩ []
    (by decide) rfl

/-- C10: every insert or replace request that returns a stats object
returns one containing all six counters as (non-negative) numbers, and
an insert over an empty source returns exactly the fresh stats object
with every counter 0; by contrast a foreach over an empty stream returns
an object with no counter fields at all. -/
theorem stats_counters_presence :
    (∀ (env : InsertEnv) (rv : Bool) (rc : Option Datum) (cf dur : Option String)
       (src : InsertSource) (d : Datum) (tr : InsertTrace),
       insert_eval env rv rc cf dur src = (.ok d, tr) →
       ∀ k ∈ statKeys, ∃ n, d.get_field k = some (.num n))
  ∧ (∀ (env : ReplaceEnv) (na : Option Bool) (rv : Bool) (rc : Option Datum)
       (dur : Option String) (det : Bool) (tgt : ReplaceTarget) (d : Datum)
       (tr : ReplaceTrace),
       replace_eval env na rv rc dur det tgt = (.ok d, tr) →
       ∀ k ∈ statKeys, ∃ n, d.get_field k = some (.num n))
  ∧ (∀ (env : InsertEnv),
       insert_eval env false none none none (.batches [])
         = (.ok new_stats_object, ⟨[], [], 0⟩))
  ∧ (∀ (fbt : Nat) (f : Datum → Except RError Datum),
       foreach_eval fbt f [] = (.ok (.obj []), 0)) := by
  refine ⟨?_, ?_, ?_, ?_⟩
  · intro env rv rc cf dur src d tr h k hk
    obtain ⟨stats, conds, st, calls, hrun, htr, hfin⟩ := insert_eval_ok_run h
    obtain ⟨b, hb⟩ := ir_num hrun (new_stats_fields_get hk)
    exact insert_finalize_num hfin hb (statKeys_ne_warnings hk)
  · intro env na rv rc dur det tgt d tr h k hk
    exact replace_eval_ok_num h k hk
  · intro env
    rfl
  · intro fbt f
    rfl

/-- Witness for the C10 theorem at a concrete empty-source insert. -/
theorem stats_counters_presence_witness :
    ∃ n, new_stats_object.get_field "inserted" = some (.num n) :=
  stats_counters_presence.1 c10env false none none none (.batches [])
    new_stats_object ⟨[], [], 0⟩ rfl "inserted" (by decide)

/-- C5 counterexample: inserting `[{}, {}, {}]` under a key-generation
limit of 0 (engine stub reporting all documents inserted) yields a stats
object whose `skipped` counter is 0, not 3 — the truncation surfaces
only in the warning, never in the `skipped` counter. -/
theorem insert_trunc_skipped_counterexample :
    (insert_eval c5env false none none none
        (.batches [[.obj [], .obj [], .obj []]])).1 = .ok c5result
    ∧ c5result.get_field "skipped" ≠ some (.num 3) := by
  constructor
  · rfl
  · intro h
    have : (0 : Nat) = 3 := by
      have h0 : c5result.get_field "skipped" = some (.num 0) := rfl
      rw [h0] at h
      injection h with h1
      injection h1
    simp at this

/-- C5 (amended): inserting `[{}, {}, {}]` under a key-generation limit
of 0 yields a per-request skip count of 3 surfaced in a single warning
describing 3 keys truncated to 0, while the `skipped` counter of the
stats object stays at what the engine reported (0) and `generated_keys`
is absent; in general the `generated_keys` field is folded into the
totals exactly when at least one key was generated. -/
theorem insert_trunc_amended :
    ((insert_eval c5env false none none none
        (.batches [[.obj [], .obj [], .obj []]])).1 = .ok c5result
     ∧ (insert_eval c5env false none none none
        (.batches [[.obj [], .obj [], .obj []]])).2.keys_skipped = 3
     ∧ (insert_eval c5env false none none none
        (.batches [[.obj [], .obj [], .obj []]])).2.generated_keys = []
     ∧ c5result.get_field "skipped" = some (.num 0)
     ∧ c5result.get_field "generated_keys" = none
     ∧ c5result.get_field "warnings" = some (.arr [.str
         "Too many generated keys (3), array truncated to 0."]))
  ∧ (∀ (env : InsertEnv), (∀ ds fl, CleanStats (env.batched_insert ds fl)) →
     ∀ (rv : Bool) (rc : Option Datum) (cf dur : Option String) (src : InsertSource)
       (d : Datum) (tr : InsertTrace),
     insert_eval env rv rc cf dur src = (.ok d, tr) →
     d.get_field "generated_keys" =
       (if tr.generated_keys.length > 0
        then some (.arr (tr.generated_keys.map Datum.str)) else none)) := by
  constructor
  · exact ⟨rfl, rfl, rfl, rfl, rfl, rfl⟩
  · intro env heng rv rc cf dur src d tr h
    obtain ⟨stats, conds, st, calls, hrun, htr, hfin⟩ := insert_eval_ok_run h
    obtain ⟨hclean, hcnd⟩ := ir_clean_of_ok heng hrun
    subst hcnd
    subst htr
    exact insert_finalize_clean_genkeys hclean hfin

/-- Witness for the C5 amended theorem's general conjunct at a concrete
empty-source insert. -/
theorem insert_trunc_amended_witness :
    new_stats_object.get_field "generated_keys" = none := by
  have h := insert_trunc_amended.2 c10env
    (fun ds fl p hp => absurd hp (List.not_mem_nil p))
    false none none none (.batches []) new_stats_object ⟨[], [], 0⟩ rfl
  simpa using h

/-- C6: over a row set, a deterministic transform attaches the
key-extraction projection before any batch is pulled, and every
`batched_replace` call receives the projected key values as both `vals`
and `keys` (keys are never read from post-fetch documents); a
non-deterministic transform (with the non-atomic opt-in) attaches no
projection, and the keys passed with each batch are read directly from
each pulled document's primary-key field. -/
theorem replace_pushdown_keys :
    (∀ (env : ReplaceEnv) (na : Option Bool) (bs : List (List Datum)),
       (∀ vs ks, CleanStats (env.batched_replace vs ks)) →
       (∀ b ∈ bs, b ≠ []) →
       (∀ b ∈ bs, ∀ d ∈ b, ∃ v, Datum.get_field d env.pkey = some v) →
       ∃ d, replace_eval env na false none none true (.rowset bs)
         = (.ok d, ⟨true, bs.map (fun b =>
             EngineCall.batchedReplace (projList env.pkey b) (projList env.pkey b)),
            bs.length⟩))
  ∧ (∀ (env : ReplaceEnv) (bs : List (List Datum)),
       (∀ vs ks, CleanStats (env.batched_replace vs ks)) →
       (∀ b ∈ bs, b ≠ []) →
       (∀ b ∈ bs, ∀ d ∈ b, ∃ v, Datum.get_field d env.pkey = some v) →
       ∃ d, replace_eval env (some true) false none none false (.rowset bs)
         = (.ok d, ⟨false, bs.map (fun b =>
             EngineCall.batchedReplace b (projList env.pkey b)),
            bs.length⟩)) := by
  constructor
  · intro env na bs heng hne hkeys
    obtain ⟨s1, hloop, hc1⟩ := @rl_clean_det env heng bs hne hkeys
      new_stats_fields [] 0 new_stats_fields_clean
    refine ⟨.obj (add_warnings s1 []), ?_⟩
    simp only [replace_eval]
    have h1 : parse_return_changes false none = .ok .NO := rfl
    have h2 : parse_durability_optarg none = .ok .DEFAULT := rfl
    rw [h1, h2]
    simp only [Bool.not_true, Bool.and_false, Bool.false_eq_true, if_false]
    rw [hloop]
    simp

  · intro env bs heng hne hkeys
    obtain ⟨s1, hloop, hc1⟩ := @rl_clean_nondet env heng bs hne hkeys
      new_stats_fields [] 0 new_stats_fields_clean
    refine ⟨.obj (add_warnings s1 []), ?_⟩
    simp only [replace_eval]
    have h1 : parse_return_changes false none = .ok .NO := rfl
    have h2 : parse_durability_optarg none = .ok .DEFAULT := rfl
    rw [h1, h2]
    simp only [Option.getD_some, Bool.not_true, Bool.false_and, Bool.false_eq_true,
      if_false]
    rw [hloop]
    simp

/-- Witness for the C6 theorem at a concrete one-batch row set. -/
theorem replace_pushdown_keys_witness :
    ∃ d, replace_eval c6env none false none none true
        (.rowset [[.obj [("id", .num 1)]]])
      = (.ok d, ⟨true, [.batchedReplace [.num 1] [.num 1]], 1⟩) := by
  have h := replace_pushdown_keys.1 c6env none [[.obj [("id", .num 1)]]]
    (fun vs ks p hp => by
      simp only [c6env, List.mem_singleton] at hp
      subst hp
      exact ⟨⟨vs.length, rfl⟩,
        by show ("replaced" : String) ≠ "warnings"; decide,
        by show ("replaced" : String) ≠ "generated_keys"; decide⟩)
    (fun b hb => by simp only [List.mem_singleton] at hb; subst hb; simp)
    (fun b hb d hd => by
      simp only [List.mem_singleton] at hb
      subst hb
      simp only [List.mem_singleton] at hd
      subst hd
      exact ⟨.num 1, rfl⟩)
  exact h

/-- C7 counterexample: an error raised while evaluating the per-row
function aborts the foreach after the failing row, but it propagates
unchanged — it is not re-wrapped with the fixed
"expects one or more basic write queries" message. -/
theorem foreach_error_wrap_counterexample :
    foreach_eval 7 (fun _ => .error c7err) [.null, .null] = (.error c7err, 1)
    ∧ c7err.msg = "boom" ∧ foreach_fail_msg ≠ "boom" := by
  refine ⟨rfl, rfl, ?_⟩
  decide

/-- C7 (amended): an error raised while interpreting a result that is
neither a stats-shaped object nor a sequence of such objects aborts the
entire foreach immediately — no further rows are processed — and is
re-raised wrapped with the fixed message while keeping the original
classification; an error raised while evaluating the per-row function
itself also aborts the entire foreach immediately, but propagates
unchanged, without the wrapping message. -/
theorem foreach_error_abort :
    (∀ (fbt : Nat) (f : Datum → Except RError Datum) (rows : List Datum)
       (bad : Datum) (rest : List Datum) (e : RError),
       (∀ r ∈ rows, ∃ d, f r = .ok d ∧ CleanStats d) →
       f bad = .error e →
       foreach_eval fbt f (rows ++ bad :: rest) = (.error e, rows.length + 1))
  ∧ (∀ (fbt : Nat) (f : Datum → Except RError Datum) (rows : List Datum)
       (bad : Datum) (rest : List Datum) (dbad : Datum),
       (∀ r ∈ rows, ∃ d, f r = .ok d ∧ CleanStats d) →
       f bad = .ok dbad → (∀ fs, dbad ≠ .obj fs) → (∀ l, dbad ≠ .arr l) →
       foreach_eval fbt f (rows ++ bad :: rest)
         = (.error ⟨.LOGIC, foreach_fail_msg ++ "  " ++
             s!"Expected type ARRAY but found {type_name dbad}.", .bt fbt false⟩,
            rows.length + 1)) := by
  constructor
  · intro fbt f rows bad rest e hclean hbad
    obtain ⟨s1, hpre, hc1⟩ := @fl_clean_run fbt f rows (bad :: rest) [] 0
      hclean (fun p hp => absurd hp (List.not_mem_nil p))
    unfold foreach_eval
    rw [hpre]
    simp only [foreach_loop, hbad, Prod.mk.injEq]
    exact ⟨trivial, by omega⟩
  · intro fbt f rows bad rest dbad hclean hbad h1 h2
    obtain ⟨s1, hpre, hc1⟩ := @fl_clean_run fbt f rows (bad :: rest) [] 0
      hclean (fun p hp => absurd hp (List.not_mem_nil p))
    unfold foreach_eval
    rw [hpre]
    simp only [foreach_loop, hbad, interpret_scalar h1 h2, wrap_foreach_error,
      Prod.mk.injEq]
    exact ⟨trivial, by omega⟩

/-- Witness for the C7 amended theorem at a concrete scalar-returning
function. -/
theorem foreach_error_abort_witness :
    foreach_eval 7 (fun _ => .ok (.num 5)) ([] ++ Datum.null :: [Datum.null])
      = (.error ⟨.LOGIC, foreach_fail_msg ++ "  " ++
          "Expected type ARRAY but found NUMBER.", .bt 7 false⟩, 1) := by
  have h := foreach_error_abort.2 7 (fun _ => .ok (.num 5)) [] Datum.null
    [Datum.null] (.num 5) (fun r hr => absurd hr (List.not_mem_nil r)) rfl
    (fun fs hfs => by injection hfs) (fun l hl => by injection hl)
  simpa using h

end RethinkWrites
